import Mathlib

/-!
Verification development for the Jump Return content script.

The sentence-context extraction engine of `src/content.js` is embedded
shallowly: JavaScript strings become `List Char`, DOM subtrees become the
`Dom` inductive (text nodes and elements with a tag, an optional
`data-testid` attribute and children), DOM `Range`s become pairs of
(path, offset) boundary points relative to the container element, and the
extraction functions (`extractBlockText`, `shiftRanges`,
`trimLeadingPills`, `extractSentenceInContainer`) are translated
function by function.  `src/storage.js` is embedded with the backing
store passed explicitly.  The range-wrapping routine `highlightRange`
and the polling routine `waitForResponse` are embedded as explicit state
transformers further below.

JavaScript interval records `{start, end}` are modelled by `Rng` whose
second field is called `stop` because `end` is a Lean keyword.
-/

/-- Convert a string literal to the character-list representation used
throughout this development. -/
def str (s : String) : List Char := s.data

/-- Whitespace test used by the model of JavaScript `trim`/`trimStart`. -/
def isWS (c : Char) : Bool := c = ' ' || c = '\n' || c = '\t' || c = '\r'

/-- Model of `String.prototype.trimStart`. -/
def trimStartL (s : List Char) : List Char := s.dropWhile isWS

/-- Model of `String.prototype.trimEnd`. -/
def trimEndL (s : List Char) : List Char := (s.reverse.dropWhile isWS).reverse

/-- Model of `String.prototype.trim`. -/
def trimL (s : List Char) : List Char := trimEndL (trimStartL s)

/-- The JavaScript idiom `s.length - s.trimStart().length` (number of
leading whitespace characters). -/
def leadWS (s : List Char) : Nat := s.length - (trimStartL s).length

/-- Model of `s.split("\n")`. -/
def splitNl : List Char → List (List Char)
  | [] => [[]]
  | c :: rest =>
    if c = '\n' then [] :: splitNl rest
    else
      match splitNl rest with
      | [] => [[c]]
      | g :: gs => (c :: g) :: gs

/-- Model of `blocks.join("\n")`. -/
def joinNl : List (List Char) → List Char
  | [] => []
  | [g] => g
  | g :: gs => g ++ '\n' :: joinNl gs

/-- Slice a list into consecutive groups of the given sizes (the
line-regrouping loop of `renderSentenceContext`). -/
def chunksOf {α : Type} : List Nat → List α → List (List α)
  | [], _ => []
  | n :: ns, xs => xs.take n :: chunksOf ns (xs.drop n)

theorem splitNl_ne_nil (s : List Char) : splitNl s ≠ [] := by
  cases s with
  | nil => simp [splitNl]
  | cons c rest =>
    simp only [splitNl]
    split
    · simp
    · split <;> simp

theorem joinNl_cons (g : List Char) (gs : List (List Char)) (h : gs ≠ []) :
    joinNl (g :: gs) = g ++ '\n' :: joinNl gs := by
  cases gs with
  | nil => exact absurd rfl h
  | cons g' gs' => rfl

theorem splitNl_nl_cons (x : List Char) : splitNl ('\n' :: x) = [] :: splitNl x := by
  simp [splitNl]

theorem splitNl_cons_ne (c : Char) (x : List Char) (hc : ¬ c = '\n') (g : List Char)
    (gs : List (List Char)) (h : splitNl x = g :: gs) :
    splitNl (c :: x) = (c :: g) :: gs := by
  simp [splitNl, if_neg hc, h]

theorem joinNl_splitNl (s : List Char) : joinNl (splitNl s) = s := by
  induction s with
  | nil => rfl
  | cons c rest ih =>
    rcases hr : splitNl rest with _ | ⟨g, gs⟩
    · exact absurd hr (splitNl_ne_nil rest)
    · rw [hr] at ih
      by_cases hc : c = '\n'
      · subst hc
        rw [splitNl_nl_cons, hr, joinNl_cons _ _ (by simp)]
        simpa using ih
      · rw [splitNl_cons_ne c rest hc g gs hr]
        cases gs with
        | nil => simpa [joinNl] using congrArg (c :: ·) ih
        | cons g' gs' =>
          rw [joinNl_cons _ _ (by simp)]
          rw [joinNl_cons _ _ (by simp)] at ih
          simpa using congrArg (c :: ·) ih

theorem splitNl_append_nl (a b : List Char) :
    splitNl (a ++ '\n' :: b) = splitNl a ++ splitNl b := by
  induction a with
  | nil => simp [splitNl]
  | cons c rest ih =>
    by_cases hc : c = '\n'
    · subst hc
      rw [List.cons_append, splitNl_nl_cons, ih, splitNl_nl_cons]
      rfl
    · rcases hr : splitNl rest with _ | ⟨g, gs⟩
      · exact absurd hr (splitNl_ne_nil rest)
      · rw [List.cons_append,
          splitNl_cons_ne c (rest ++ '\n' :: b) hc g (gs ++ splitNl b) (by rw [ih, hr]; rfl),
          splitNl_cons_ne c rest hc g gs hr]
        rfl

theorem splitNl_joinNl_eq_flatten (bs : List (List Char)) (h : bs ≠ []) :
    splitNl (joinNl bs) = (bs.map splitNl).flatten := by
  induction bs with
  | nil => exact absurd rfl h
  | cons b rest ih =>
    cases rest with
    | nil => simp [joinNl]
    | cons b' rest' =>
      rw [joinNl_cons _ _ (by simp), splitNl_append_nl]
      simp [ih]

theorem chunksOf_map_length {α : Type} (ls : List (List α)) :
    chunksOf (ls.map List.length) ls.flatten = ls := by
  induction ls with
  | nil => rfl
  | cons l rest ih =>
    simp only [List.map_cons, List.flatten_cons, chunksOf]
    rw [List.take_left, List.drop_left]
    simp [ih]

/-! ## DOM model for the extraction engine

A `Dom` value is a DOM subtree: a text node, or an element carrying its
tag name, its `data-testid` attribute (if any) and its children.  Nodes
are addressed by paths (lists of child indices) relative to the
container element handed to `extractSentenceInContainer`. -/

inductive Dom where
  | text : List Char → Dom
  | elem : String → Option String → List Dom → Dom

mutual
/-- Model of `Node.textContent`. -/
def Dom.textContent : Dom → List Char
  | .text s => s
  | .elem _ _ cs => Dom.textContentList cs

def Dom.textContentList : List Dom → List Char
  | [] => []
  | d :: ds => Dom.textContent d ++ Dom.textContentList ds
end

def Dom.children : Dom → List Dom
  | .text _ => []
  | .elem _ _ cs => cs

def Dom.tagOf : Dom → Option String
  | .text _ => none
  | .elem t _ _ => some t

/-- Look up the node addressed by a path. -/
def getNode : Dom → List Nat → Option Dom
  | d, [] => some d
  | d, i :: p =>
    match (Dom.children d)[i]? with
    | some c => getNode c p
    | none => none

def tagAt (root : Dom) (q : List Nat) : Option String :=
  (getNode root q).bind Dom.tagOf

/-- The `BLOCK_TAGS` set of content.js. -/
def isBlockTag (t : String) : Bool :=
  t = "P" || t = "LI" || t = "H1" || t = "H2" || t = "H3" || t = "H4" || t = "H5" ||
  t = "H6" || t = "PRE" || t = "BLOCKQUOTE" || t = "TD" || t = "TH"

/-- The leaf-block filter of the `TreeWalker` in `extractSentenceInContainer`:
a block-tagged element none of whose direct element children is
block-tagged. -/
def isLeafBlock : Dom → Bool
  | .text _ => false
  | .elem t _ cs =>
    isBlockTag t && !(cs.any fun c =>
      match c with
      | .elem t' _ _ => isBlockTag t'
      | .text _ => false)

mutual
/-- All element descendants of a node (the node itself excluded), with
their paths, in document (pre-)order — the nodes visited by a
`TreeWalker` with `SHOW_ELEMENT`. -/
def elemsUnder : Dom → List Nat → List (List Nat × Dom)
  | .text _, _ => []
  | .elem _ _ cs, p => elemsUnderList cs p 0

def elemsUnderList : List Dom → List Nat → Nat → List (List Nat × Dom)
  | [], _, _ => []
  | c :: rest, p, i =>
    (match c with
     | .elem _ _ _ => [(p ++ [i], c)]
     | .text _ => []) ++ elemsUnder c (p ++ [i]) ++ elemsUnderList rest p (i + 1)
end

/-! Boundary points of a DOM `Range` are encoded as keys: the path of the
container node with the offset appended.  Lexicographic comparison of
keys is document order of boundary points. -/

def keyLt : List Nat → List Nat → Bool
  | [], [] => false
  | [], _ :: _ => true
  | _ :: _, [] => false
  | a :: as, b :: bs => if a < b then true else if a = b then keyLt as bs else false

def keyLe (a b : List Nat) : Bool := if a = b then true else keyLt a b

/-- A selection range: start/end (container path, offset) pairs relative
to the container element. -/
structure SRange where
  sPath : List Nat
  sOff : Nat
  ePath : List Nat
  eOff : Nat

def SRange.sKey (r : SRange) : List Nat := r.sPath ++ [r.sOff]

def SRange.eKey (r : SRange) : List Nat := r.ePath ++ [r.eOff]

/-- Increment the last entry of a path: the boundary point just after a
node, given the boundary point just before it. -/
def bumpLast : List Nat → List Nat
  | [] => []
  | [i] => [i + 1]
  | i :: p => i :: bumpLast p

/-- Model of `range.intersectsNode(node)` for the node at path `p`. -/
def intersectsNode (r : SRange) (p : List Nat) : Bool :=
  keyLt p r.eKey && keyLt r.sKey (bumpLast p)

mutual
/-- Count the characters lying between two boundary keys: the length of
`range.toString()` for the range between them. -/
def countChars : Dom → List Nat → List Nat → List Nat → Nat
  | .text s, p, sK, eK =>
    (List.range s.length).countP fun j => keyLe sK (p ++ [j]) && keyLe (p ++ [j + 1]) eK
  | .elem _ _ cs, p, sK, eK => countCharsList cs p 0 sK eK

def countCharsList : List Dom → List Nat → Nat → List Nat → List Nat → Nat
  | [], _, _, _, _ => 0
  | c :: rest, p, i, sK, eK =>
    countChars c (p ++ [i]) sK eK + countCharsList rest p (i + 1) sK eK
end

/-- Model of `getOffsetInBlock(block, container, offset)`: the length of
the text of a range from the start of the block to the given boundary
point. -/
def getOffsetInBlock (root : Dom) (blockPath cPath : List Nat) (cOff : Nat) : Nat :=
  countChars root [] (blockPath ++ [0]) (cPath ++ [cOff])

/-- The `SENTENCE_TERMINATORS` set of content.js. -/
def isTerminator (c : Char) : Bool :=
  c = '.' || c = '?' || c = '!' || c = '。' || c = '？' || c = '！'

/-- The backward terminator scan: `for (i = off - 1; i >= 0; i--) if
terminator at i then return i + 1; return 0`. -/
def lastTermBefore (cs : List Char) : Nat → Nat
  | 0 => 0
  | k + 1 => if (cs[k]?).any isTerminator then k + 1 else lastTermBefore cs k

/-- The forward terminator scan: `for (j = off; j < len; j++) if
terminator at j then return j + 1; return len`. -/
def firstTermFrom (cs : List Char) (j : Nat) : Nat :=
  match (cs.drop j).findIdx? isTerminator with
  | some k => j + k + 1
  | none => cs.length

/-- Model of `s.slice(a, b)` for in-range indices. -/
def sliceL (cs : List Char) (a b : Nat) : List Char := (cs.take b).drop a

/-- A half-open character interval `{start, end}` of content.js; the
`end` field is called `stop` here because `end` is a Lean keyword. -/
structure Rng where
  start : Int
  stop : Int
deriving DecidableEq, Repr

mutual
/-- The recursive `walk` of `extractBlockText`: flatten text, recording
citation-pill intervals (`data-testid="webpage-citation-pill"` elements,
captured as a unit) and bold intervals (text nodes below `STRONG`/`B`). -/
def ebWalk : Dom → Bool → List Char → List Rng → List Rng → List Char × List Rng × List Rng
  | .text s, inBold, raw, pills, bolds =>
    if inBold then
      (raw ++ s, pills, bolds ++ [⟨(raw.length : Int), ((raw ++ s).length : Int)⟩])
    else (raw ++ s, pills, bolds)
  | .elem tag tid cs, inBold, raw, pills, bolds =>
    if tid = some "webpage-citation-pill" then
      let t := Dom.textContentList cs
      (raw ++ t, pills ++ [⟨(raw.length : Int), ((raw ++ t).length : Int)⟩], bolds)
    else
      ebWalkList cs (inBold || tag = "STRONG" || tag = "B") raw pills bolds

def ebWalkList : List Dom → Bool → List Char → List Rng → List Rng → List Char × List Rng × List Rng
  | [], _, raw, pills, bolds => (raw, pills, bolds)
  | c :: rest, inBold, raw, pills, bolds =>
    let acc := ebWalk c inBold raw pills bolds
    ebWalkList rest inBold acc.1 acc.2.1 acc.2.2
end

/-- The bold-merging loop of `extractBlockText` (`merged` accumulator with
in-place extension of its last element). -/
def mergeAux : Rng → List Rng → List Rng
  | cur, [] => [cur]
  | cur, r :: rest =>
    if r.start ≤ cur.stop then mergeAux ⟨cur.start, max cur.stop r.stop⟩ rest
    else cur :: mergeAux r rest

def mergeBolds : List Rng → List Rng
  | [] => []
  | b :: rest => mergeAux b rest

/-- Model of the `shiftRanges` helper of `extractSentenceInContainer`:
shift intervals left by `shift`, drop the ones falling entirely outside
`[0, textLen)`, clamp the rest.  The leading-whitespace adjustment loop of
`extractBlockText` performs the identical computation and is modelled by
the same function. -/
def shiftRanges (arr : List Rng) (shift : Int) (textLen : Int) : List Rng :=
  arr.filterMap fun r =>
    let s := r.start - shift
    let e := r.stop - shift
    if e > 0 && s < textLen then some ⟨max 0 s, min textLen e⟩ else none

/-- The result record of `extractBlockText`. -/
structure BlockExtract where
  text : List Char
  pills : List Rng
  bolds : List Rng
deriving DecidableEq, Repr

/-- Model of `extractBlockText(node)`. -/
def extractBlockText (node : Dom) : BlockExtract :=
  let w := ebWalk node false [] [] []
  let raw := w.1
  let pills := w.2.1
  let bolds := mergeBolds w.2.2
  let lw := leadWS raw
  let trimmed := trimL raw
  if lw > 0 then
    { text := trimmed, pills := shiftRanges pills (lw : Int) (trimmed.length : Int),
      bolds := shiftRanges bolds (lw : Int) (trimmed.length : Int) }
  else { text := trimmed, pills := pills, bolds := bolds }

theorem shiftRanges_length_le (arr : List Rng) (shift textLen : Int) :
    (shiftRanges arr shift textLen).length ≤ arr.length :=
  List.length_filterMap_le _ _

/-- The loop body of the `trimLeadingPills` helper: while the first pill
sits at offset 0, drop it, strip the following whitespace and re-base
the remaining intervals.  (`text.slice(pEnd)` is modelled with
`Int.toNat`; the pill invariants keep `pEnd` non-negative.)  The `while`
loop terminates in the source because each round drops one pill; here
the recursion is paced by a fuel argument that `trimLeadingPills` seeds
with more rounds than pills, which never runs out. -/
def trimPillsAux : Nat → List Char → List Rng → List Rng → List Char × List Rng × List Rng
  | 0, text, ps, bolds => (text, ps, bolds)
  | fuel + 1, text, ps, bolds =>
    match ps with
    | [] => (text, [], bolds)
    | p :: ps2 =>
      if p.start = 0 then
        let pEnd := p.stop.toNat
        let rest := text.drop pEnd
        let ws := leadWS rest
        let text2 := trimStartL rest
        let shift : Int := (pEnd : Int) + (ws : Int)
        trimPillsAux fuel text2 (shiftRanges ps2 shift (text2.length : Int))
          (shiftRanges bolds shift (text2.length : Int))
      else (text, p :: ps2, bolds)

/-- Model of the `trimLeadingPills` helper of `extractSentenceInContainer`. -/
def trimLeadingPills (text : List Char) (ps bolds : List Rng) :
    List Char × List Rng × List Rng :=
  trimPillsAux (ps.length + 1) text ps bolds

/-- A block descriptor, as pushed onto the caller-supplied `blockTypes`
array by `extractSentenceInContainer`. -/
structure BlockMeta where
  tag : String
  depth : Nat
  lineCount : Nat
  listType : String
  listStart : Nat
  pills : Option (List Rng)
  bolds : Option (List Rng)
deriving DecidableEq, Repr

/-- The chain of proper ancestors of the node at `p`, deepest first, the
container (empty path) excluded — the `while (ancestor && ancestor !==
container)` walk. -/
def ancChain (p : List Nat) : List (List Nat) :=
  ((List.range p.length).reverse.filter fun k => 0 < k).map fun k => p.take k

/-- The node itself and all its ancestors up to the container, deepest
first — the chain searched by `node.closest(...)`. -/
def selfAndAncestors (p : List Nat) : List (List Nat) := p :: (ancChain p ++ [[]])

/-- Model of `node.closest("li")`. -/
def findClosestLI (root : Dom) (p : List Nat) : Option (List Nat) :=
  (selfAndAncestors p).find? fun q => tagAt root q = some "LI"

def firstElemIdx : List Dom → Nat → Option Nat
  | [], _ => none
  | .elem _ _ _ :: _, i => some i
  | .text _ :: rest, i => firstElemIdx rest (i + 1)

/-- Model of `li.firstElementChild`, as a path. -/
def firstElemChildPath (root : Dom) (li : List Nat) : Option (List Nat) :=
  match getNode root li with
  | some (.elem _ _ cs) => (firstElemIdx cs 0).map fun i => li ++ [i]
  | _ => none

/-- The `previousElementSibling` counting loop recovering an ordered-list
item's original ordinal. -/
def liOrd (root : Dom) (li : List Nat) : Nat :=
  match getNode root li.dropLast with
  | some (.elem _ _ cs) =>
    let idx := (li.getLast?).getD 0
    1 + (cs.take idx).countP fun c =>
      match c with
      | .elem t _ _ => t = "LI"
      | .text _ => false
  | _ => 1

/-- The ancestor walk computing list-nesting depth, list kind and start
ordinal (`depth`/`listType`/`listStart`); run only when the block sits
inside an `li`, exactly as in the source. -/
def listInfo (root : Dom) (p : List Nat) (closestLI : Option (List Nat)) :
    Nat × String × Nat :=
  match closestLI with
  | none => (0, "ul", 1)
  | some li =>
    (ancChain p).foldl
      (fun st q =>
        match tagAt root q with
        | some t =>
          if t = "UL" || t = "OL" then
            let (depth, lt, ls) := st
            if depth = 0 then
              (1, if t = "OL" then "ol" else "ul", if t = "OL" then liOrd root li else ls)
            else (depth + 1, lt, ls)
          else st
        | none => st)
      (0, "ul", 1)

/-- The inline interval-adjustment loops of the single-block path
(`adjS = start + rangeOffset` …): shift by `off`, drop intervals outside
`(0, len)`, clamp the rest. -/
def clampShift (arr : List Rng) (off : Int) (len : Int) : List Rng :=
  arr.filterMap fun r =>
    let s := r.start + off
    let e := r.stop + off
    if e > 0 && s < len then some ⟨max 0 s, min len e⟩ else none

/-- Start-block stage of the multi-block loop (lines 246–263): trim the
block to the sentence containing the selection start; the returned
`Bool` is the loop's `isFirstSent` flag. -/
def startTrimStage (root : Dom) (r : SRange) (startP : List Nat) (p : List Nat) (node : Dom)
    (ext : BlockExtract) : List Char × List Rng × List Rng × Bool :=
  if p = startP ∧ Dom.tagOf node ≠ some "PRE" ∧ p.isPrefixOf r.sPath then
    let rawOffS := getOffsetInBlock root p r.sPath r.sOff
    let leadWSS := leadWS (Dom.textContent node)
    let trimOffS := rawOffS - leadWSS
    let bSS := lastTermBefore ext.text trimOffS
    if bSS > 0 then
      let sliced := ext.text.drop bSS
      let sliceLead := leadWS sliced
      let bt := trimL sliced
      (bt, shiftRanges ext.pills ((bSS : Int) + (sliceLead : Int)) (bt.length : Int),
           shiftRanges ext.bolds ((bSS : Int) + (sliceLead : Int)) (bt.length : Int), false)
    else (ext.text, ext.pills, ext.bolds, true)
  else (ext.text, ext.pills, ext.bolds, true)

/-- End-block stage of the multi-block loop (lines 265–279): trim the
block to the sentence containing the selection end. -/
def endTrimStage (root : Dom) (r : SRange) (endP : List Nat) (p : List Nat) (node : Dom)
    (s1 : List Char × List Rng × List Rng × Bool) : List Char × List Rng × List Rng × Bool :=
  if p = endP ∧ Dom.tagOf node ≠ some "PRE" ∧ p.isPrefixOf r.ePath then
    let (bt, bp, bb, _) := s1
    let rawOffE := getOffsetInBlock root p r.ePath r.eOff
    let leadWSE := leadWS (Dom.textContent node)
    let trimOffE := min bt.length (rawOffE - leadWSE)
    let bSE := firstTermFrom bt trimOffE
    if bSE < bt.length then
      let bt2 := trimL (bt.take bSE)
      (bt2, shiftRanges bp 0 (bt2.length : Int), shiftRanges bb 0 (bt2.length : Int), s1.2.2.2)
    else s1
  else s1

/-- Leading-pill stage of the multi-block loop (lines 281–287): never
start the quote with a citation pill. -/
def leadPillStage (isFirst : Bool) (s2 : List Char × List Rng × List Rng × Bool) :
    List Char × List Rng × List Rng × Bool :=
  let (bt, bp, bb, ifs) := s2
  if isFirst then
    match bp with
    | q :: _ =>
      if q.start = 0 then
        let t := trimLeadingPills bt bp bb
        (t.1, t.2.1, t.2.2, ifs)
      else (bt, bp, bb, ifs)
    | [] => (bt, bp, bb, ifs)
  else (bt, bp, bb, ifs)

/-- The per-block text computation of the multi-block loop of
`extractSentenceInContainer` (lines 238–289): extract the block, trim the
start block to the sentence containing the selection start, trim the end
block to the sentence containing the selection end, and strip leading
citation pills when no block has been contributed yet. -/
def multiBlockText (root : Dom) (r : SRange) (startP endP : List Nat) (isFirst : Bool)
    (p : List Nat) (node : Dom) : List Char × List Rng × List Rng × Bool :=
  leadPillStage isFirst
    (endTrimStage root r endP p node (startTrimStage root r startP p node (extractBlockText node)))

/-- The block-descriptor computation of the multi-block loop (lines
292–339): `closest("li")`, depth/list kind/ordinal walk and tag choice,
returning the descriptor together with the new `prevLI`. -/
def mkBlockMeta (root : Dom) (p : List Nat) (node : Dom) (prevLI : Option (List Nat))
    (isFirstSent : Bool) (bt : List Char) (bp bb : List Rng) :
    BlockMeta × Option (List Nat) :=
  let closestLI := findClosestLI root p
  let info := listInfo root p closestLI
  let isFirstBlk := closestLI = none ∨ closestLI = some p ∨
    closestLI.bind (firstElemChildPath root) = some p
  let tag :=
    if closestLI = none then (Dom.tagOf node).getD ""
    else if closestLI = prevLI then "LI_CONT"
    else if ¬ isFirstSent = true ∨ ¬ isFirstBlk then "LI_CONT"
    else "LI"
  ({ tag := tag, depth := info.1, lineCount := (splitNl bt).length, listType := info.2.1,
     listStart := info.2.2, pills := some bp,
     bolds := if bb.isEmpty then none else some bb }, closestLI)

/-- One iteration of the multi-block loop: skip blocks whose processed
text is empty, otherwise push the text and its descriptor. -/
def multiStep (root : Dom) (r : SRange) (startP endP : List Nat)
    (st : List (List Char) × List BlockMeta × Option (List Nat)) (pd : List Nat × Dom) :
    List (List Char) × List BlockMeta × Option (List Nat) :=
  let (blocks, metas, prevLI) := st
  let (bt, bp, bb, ifs) := multiBlockText root r startP endP blocks.isEmpty pd.1 pd.2
  if bt.isEmpty then (blocks, metas, prevLI)
  else
    let m := mkBlockMeta root pd.1 pd.2 prevLI ifs bt bp bb
    (blocks ++ [bt], metas ++ [m.1], m.2)

/-- The multi-block path of `extractSentenceInContainer` (lines 235–342):
the contributed block texts (joined with newlines by the caller) and
their descriptors. -/
def multiExtract (root : Dom) (r : SRange) (selected : List (List Nat × Dom)) :
    List (List Char) × List BlockMeta :=
  let startP := ((selected.head?).map Prod.fst).getD []
  let endP := ((selected.getLast?).map Prod.fst).getD []
  let res := selected.foldl (multiStep root r startP endP) ([], [], none)
  (res.1, res.2.1)

/-- The leading-pill guard of the single-block path (lines 409–414):
never start the quote with a citation pill. -/
def leadPillTrimSingle (sentence : List Char) (ps bs : List Rng) :
    List Char × List Rng × List Rng :=
  match ps with
  | q :: _ => if q.start = 0 then trimLeadingPills sentence ps bs else (sentence, ps, bs)
  | [] => (sentence, ps, bs)

/-- The single-block path of `extractSentenceInContainer` (lines
344–455): code blocks are returned whole; otherwise the sentence around
the selection is cut out at terminator boundaries and its descriptor is
pushed when it carries any metadata. -/
def singlePath (root : Dom) (r : SRange) (p : List Nat) (node : Dom) :
    Option (List Char) × List BlockMeta :=
  let blockText := Dom.textContent node
  if blockText.isEmpty then (none, [])
  else if Dom.tagOf node = some "PRE" then (some (trimL blockText), [])
  else
    let startOffset := getOffsetInBlock root p r.sPath r.sOff
    let endOffset := min blockText.length (getOffsetInBlock root p r.ePath r.eOff)
    let sentStart := lastTermBefore blockText startOffset
    let sentEnd := firstTermFrom blockText endOffset
    let sentence := trimL (sliceL blockText sentStart sentEnd)
    if sentence.isEmpty then (none, [])
    else
      let ext := extractBlockText node
      let closestLI := findClosestLI root p
      let isFirstBlk := closestLI = none ∨ closestLI = some p ∨
        closestLI.bind (firstElemChildPath root) = some p
      let isFirstSentence := closestLI.isSome = true ∧ isFirstBlk ∧ sentStart = 0
      let blockLeadWS := leadWS blockText
      let rawSlice := sliceL blockText sentStart sentEnd
      let sentLeadWS := leadWS rawSlice
      let rangeOffset : Int := (blockLeadWS : Int) - (sentStart : Int) - (sentLeadWS : Int)
      let sentPills := clampShift ext.pills rangeOffset (sentence.length : Int)
      let sentBolds := clampShift ext.bolds rangeOffset (sentence.length : Int)
      let t3 := leadPillTrimSingle sentence sentPills sentBolds
      let sentence2 := t3.1
      let sentPills2 := t3.2.1
      let sentBolds2 := t3.2.2
      let metas :=
        if isFirstSentence ∨ sentPills2 ≠ [] ∨ sentBolds2 ≠ [] then
          let info := listInfo root p closestLI
          [({ tag := if isFirstSentence then "LI" else (Dom.tagOf node).getD "",
              depth := info.1, lineCount := (splitNl sentence2).length,
              listType := info.2.1, listStart := info.2.2,
              pills := if sentPills2.isEmpty then none else some sentPills2,
              bolds := if sentBolds2.isEmpty then none else some sentBolds2 } : BlockMeta)]
        else []
      (if sentence2.isEmpty then none else some sentence2, metas)

/-- Model of `extractSentenceInContainer(range, blockTypes, container)`:
returns the extracted text (`null` modelled as `none`) together with the
block descriptors pushed onto `blockTypes`. -/
def extractSentenceInContainer (root : Dom) (r : SRange) :
    Option (List Char) × List BlockMeta :=
  let leaves := (elemsUnder root []).filter fun pd => isLeafBlock pd.2
  let selected := leaves.filter fun pd => intersectsNode r pd.1
  match selected with
  | [] => (none, [])
  | sb :: rest =>
    let multiRes := if rest.isEmpty then ([], []) else multiExtract root r (sb :: rest)
    if multiRes.1.isEmpty then
      let s := singlePath root r sb.1 sb.2
      (s.1, multiRes.2 ++ s.2)
    else (some (joinNl multiRes.1), multiRes.2)

/-! ## Text preservation of the extraction walk -/

mutual
theorem ebWalk_raw : ∀ (n : Dom) (b : Bool) (raw : List Char) (ps bs : List Rng),
    (ebWalk n b raw ps bs).1 = raw ++ Dom.textContent n
  | .text s, b, raw, ps, bs => by
    simp only [ebWalk, Dom.textContent]
    split <;> rfl
  | .elem tag tid cs, b, raw, ps, bs => by
    simp only [ebWalk, Dom.textContent]
    split
    · rfl
    · exact ebWalkList_raw cs _ raw ps bs

theorem ebWalkList_raw : ∀ (cs : List Dom) (b : Bool) (raw : List Char) (ps bs : List Rng),
    (ebWalkList cs b raw ps bs).1 = raw ++ Dom.textContentList cs
  | [], b, raw, ps, bs => by simp [ebWalkList, Dom.textContentList]
  | c :: rest, b, raw, ps, bs => by
    simp only [ebWalkList, Dom.textContentList]
    rw [ebWalkList_raw rest, ebWalk_raw c]
    simp
end

/-- C9: the `text` field returned by `extractBlockText(node)` is exactly
`node.textContent` with leading and trailing whitespace trimmed; the
flattening walk neither alters nor drops nor duplicates any character of
the block's rendered text. -/
theorem c9_extractBlockText_text_eq_trimmed_textContent (node : Dom) :
    (extractBlockText node).text = trimL (Dom.textContent node) := by
  simp only [extractBlockText]
  split <;> simp [ebWalk_raw]

/-! ## The concrete extraction scenarios -/

/-- A paragraph block whose text is the single-sentence scenario of the
specification. -/
def c2Container : Dom :=
  .elem "DIV" none [.elem "P" none [.text (str "The cat sat. The dog ran. The bird flew.")]]

/-- The selection covering exactly the substring `"dog ran"` (character
offsets 17–24 of the paragraph's text node). -/
def c2Range : SRange := ⟨[0, 0], 17, [0, 0], 24⟩

/-- C2: on the block `"The cat sat. The dog ran. The bird flew."` with
the selection `"dog ran"`, sentence extraction scans left to the
terminator at offset 11 and right to the terminator at offset 24 and
returns the trimmed substring `"The dog ran."` (and no block metadata). -/
theorem c2_single_sentence_extraction :
    extractSentenceInContainer c2Container c2Range = (some (str "The dog ran."), []) := by
  decide

/-- A code block (`PRE`) whose full text is `"x = 1.\ny = 2."`. -/
def c5Container : Dom := .elem "DIV" none [.elem "PRE" none [.text (str "x = 1.\ny = 2.")]]

/-- C5: for any non-empty selection inside the code block, extraction
returns the entire trimmed block text verbatim, ignoring the sentence
terminators it contains. -/
theorem c5_code_block_returned_whole (a b : Nat) (_hab : a < b) (_hb : b ≤ 13) :
    extractSentenceInContainer c5Container ⟨[0, 0], a, [0, 0], b⟩ =
      (some (str "x = 1.\ny = 2."), []) := by
  have hsel : ((elemsUnder c5Container []).filter fun pd => isLeafBlock pd.2).filter
      (fun pd => intersectsNode ⟨[0, 0], a, [0, 0], b⟩ pd.1) =
      [([0], .elem "PRE" none [.text (str "x = 1.\ny = 2.")])] := by
    simp only [c5Container, elemsUnder, elemsUnderList, isLeafBlock, intersectsNode,
      List.filter, keyLt, bumpLast, SRange.eKey, SRange.sKey]
    norm_num [isBlockTag, isTerminator]
  simp only [extractSentenceInContainer, hsel]
  simp [singlePath, Dom.textContent, Dom.textContentList, Dom.tagOf, c5Container]
  decide

/-- C5 witness: a concrete non-empty in-block selection. -/
theorem c5_code_block_returned_whole_witness :
    (2 < 5 ∧ 5 ≤ 13) ∧
      extractSentenceInContainer c5Container ⟨[0, 0], 2, [0, 0], 5⟩ =
        (some (str "x = 1.\ny = 2."), []) :=
  ⟨by decide, c5_code_block_returned_whole 2 5 (by decide) (by decide)⟩

/-! ## C1: round-trip block reconstruction -/

theorem multiFold_lineCounts (root : Dom) (r : SRange) (startP endP : List Nat) :
    ∀ (sel : List (List Nat × Dom)) (st : List (List Char) × List BlockMeta × Option (List Nat)),
      st.2.1.map BlockMeta.lineCount = st.1.map (fun b => (splitNl b).length) →
      (sel.foldl (multiStep root r startP endP) st).2.1.map BlockMeta.lineCount
        = (sel.foldl (multiStep root r startP endP) st).1.map fun b => (splitNl b).length
  | [], _, h => h
  | pd :: rest, st, h => by
    rw [List.foldl_cons]
    apply multiFold_lineCounts root r startP endP rest
    rcases st with ⟨blocks, metas, prevLI⟩
    simp only [multiStep]
    rcases hmb : multiBlockText root r startP endP blocks.isEmpty pd.1 pd.2 with ⟨bt, bp, bb, ifs⟩
    by_cases hbt : bt.isEmpty
    · simpa [hbt] using h
    · simp only [hbt, Bool.false_eq_true, if_false, mkBlockMeta]
      simp only at h
      simp [h]

/-- C1: for every context produced by the multi-block path of
`extractSentenceInContainer`, slicing the newline-split lines of the
joined text into consecutive groups of each descriptor's `lineCount`, in
block order, and re-joining the groups with single newlines reproduces
the joined text exactly. -/
theorem c1_round_trip_block_reconstruction (root : Dom) (r : SRange)
    (selected : List (List Nat × Dom)) (blocks : List (List Char)) (metas : List BlockMeta)
    (h : multiExtract root r selected = (blocks, metas)) (hne : blocks ≠ []) :
    joinNl ((chunksOf (metas.map BlockMeta.lineCount) (splitNl (joinNl blocks))).map joinNl)
      = joinNl blocks := by
  have hm : metas.map BlockMeta.lineCount = blocks.map fun b => (splitNl b).length := by
    have hf := multiFold_lineCounts root r
      (((selected.head?).map Prod.fst).getD []) (((selected.getLast?).map Prod.fst).getD [])
      selected ([], [], none) (by simp)
    simp only [multiExtract, Prod.mk.injEq] at h
    rw [← h.1, ← h.2]
    exact hf
  rw [hm, splitNl_joinNl_eq_flatten blocks hne]
  have h2 : blocks.map (fun b => (splitNl b).length) = (blocks.map splitNl).map List.length := by
    simp [List.map_map, Function.comp]
  rw [h2, chunksOf_map_length, List.map_map]
  congr 1
  have : ∀ b ∈ blocks, (joinNl ∘ splitNl) b = id b := fun b _ => joinNl_splitNl b
  rw [List.map_congr_left this, List.map_id]

/-- Two plain paragraph blocks for the C1 witness. -/
def c1Container : Dom :=
  .elem "DIV" none [.elem "P" none [.text (str "One.")], .elem "P" none [.text (str "Two.")]]

def c1Range : SRange := ⟨[0, 0], 0, [1, 0], 4⟩

def c1Selected : List (List Nat × Dom) :=
  [([0], .elem "P" none [.text (str "One.")]), ([1], .elem "P" none [.text (str "Two.")])]

def c1Metas : List BlockMeta :=
  [{ tag := "P", depth := 0, lineCount := 1, listType := "ul", listStart := 1,
     pills := some [], bolds := none },
   { tag := "P", depth := 0, lineCount := 1, listType := "ul", listStart := 1,
     pills := some [], bolds := none }]

/-- C1 witness: the round trip on a concrete two-block extraction. -/
theorem c1_round_trip_block_reconstruction_witness :
    (multiExtract c1Container c1Range c1Selected = ([str "One.", str "Two."], c1Metas)
      ∧ ([str "One.", str "Two."] : List (List Char)) ≠ []) ∧
    joinNl ((chunksOf (c1Metas.map BlockMeta.lineCount)
        (splitNl (joinNl [str "One.", str "Two."]))).map joinNl)
      = joinNl [str "One.", str "Two."] :=
  ⟨⟨by decide, by decide⟩,
    c1_round_trip_block_reconstruction c1Container c1Range c1Selected _ _ (by decide) (by decide)⟩

/-! ## Interval invariants of the extraction walk -/

/-- Intervals lie within `[0, L]` and are ordered `start ≤ stop`. -/
def RngsWithin (rs : List Rng) (L : Int) : Prop :=
  ∀ q ∈ rs, 0 ≤ q.start ∧ q.start ≤ q.stop ∧ q.stop ≤ L

/-- Consecutive intervals never overlap (they may touch). -/
def RngsSep (rs : List Rng) : Prop := rs.Pairwise fun a b => a.stop ≤ b.start

/-- The basic pill invariant needed by the leading-pill stripping
argument: non-negative ordered intervals, pairwise non-overlapping. -/
def PillsBase (rs : List Rng) : Prop :=
  (∀ q ∈ rs, 0 ≤ q.start ∧ q.start ≤ q.stop) ∧ RngsSep rs

theorem rngsWithin_mono {rs : List Rng} {L L' : Int} (h : RngsWithin rs L) (hL : L ≤ L') :
    RngsWithin rs L' := fun q hq =>
  ⟨(h q hq).1, (h q hq).2.1, le_trans (h q hq).2.2 hL⟩

theorem shiftRanges_mem {arr : List Rng} {shift textLen : Int} {q : Rng}
    (hq : q ∈ shiftRanges arr shift textLen) :
    ∃ r ∈ arr, r.stop - shift > 0 ∧ r.start - shift < textLen ∧
      q = ⟨max 0 (r.start - shift), min textLen (r.stop - shift)⟩ := by
  simp only [shiftRanges, List.mem_filterMap] at hq
  obtain ⟨r, hr, heq⟩ := hq
  split at heq
  next hcond =>
    simp only [Bool.and_eq_true, decide_eq_true_eq] at hcond
    cases heq
    exact ⟨r, hr, hcond.1, hcond.2, rfl⟩
  next => exact absurd heq (by simp)

theorem shiftRanges_within {arr : List Rng} {shift textLen : Int} (hlen : 0 ≤ textLen)
    (hss : ∀ q ∈ arr, q.start ≤ q.stop) :
    RngsWithin (shiftRanges arr shift textLen) textLen := by
  intro q hq
  obtain ⟨r, hr, h1, h2, rfl⟩ := shiftRanges_mem hq
  have h3 := hss r hr
  dsimp only
  refine ⟨le_max_left _ _, ?_, min_le_left _ _⟩
  rcases le_or_lt (r.start - shift) 0 with hs | hs
  · rw [max_eq_left hs]
    exact le_min hlen (le_of_lt h1)
  · rw [max_eq_right (le_of_lt hs)]
    exact le_min (le_of_lt h2) (sub_le_sub_right h3 shift)

theorem shiftRanges_sep {arr : List Rng} {shift textLen : Int}
    (hss : ∀ q ∈ arr, q.start ≤ q.stop) (hsep : RngsSep arr) :
    RngsSep (shiftRanges arr shift textLen) := by
  unfold RngsSep at *
  unfold shiftRanges
  rw [List.pairwise_filterMap]
  refine hsep.imp_of_mem ?_
  intro a b ha hb hab q1 hq1 q2 hq2
  simp only [Option.mem_def] at hq1 hq2
  by_cases hc1 : a.stop - shift > 0 ∧ a.start - shift < textLen
  · rw [if_pos (by simp [hc1.1, hc1.2])] at hq1
    by_cases hc2 : b.stop - shift > 0 ∧ b.start - shift < textLen
    · rw [if_pos (by simp [hc2.1, hc2.2])] at hq2
      cases hq1; cases hq2
      have h1 : a.stop ≤ b.start := hab
      have h2 : a.start ≤ a.stop := hss a ha
      have h3 : b.start ≤ b.stop := hss b hb
      show min textLen (a.stop - shift) ≤ max 0 (b.start - shift)
      omega
    · rw [if_neg (by simpa [Decidable.not_and_iff_or_not] using hc2)] at hq2
      exact absurd hq2 (by simp)
  · rw [if_neg (by simpa [Decidable.not_and_iff_or_not] using hc1)] at hq1
    exact absurd hq1 (by simp)

theorem shiftRanges_pillsBase {arr : List Rng} {shift textLen : Int} (hlen : 0 ≤ textLen)
    (h : PillsBase arr) : PillsBase (shiftRanges arr shift textLen) := by
  refine ⟨fun q hq => ?_, shiftRanges_sep (fun q hq => (h.1 q hq).2) h.2⟩
  have := shiftRanges_within hlen (fun q hq => (h.1 q hq).2) q hq
  exact ⟨this.1, this.2.1⟩

theorem clampShift_eq_shiftRanges (arr : List Rng) (off len : Int) :
    clampShift arr off len = shiftRanges arr (-off) len := by
  unfold clampShift shiftRanges
  congr 1
  funext r
  simp [sub_neg_eq_add]

theorem trimPillsAux_base :
    ∀ (fuel : Nat) (text : List Char) (ps bolds : List Rng), ps.length < fuel →
      PillsBase ps →
      PillsBase (trimPillsAux fuel text ps bolds).2.1 ∧
        ((trimPillsAux fuel text ps bolds).2.1 = [] ∨
          ∀ q, (trimPillsAux fuel text ps bolds).2.1.head? = some q → q.start ≠ 0)
  | 0, _, ps, _, hf, _ => absurd hf (by omega)
  | fuel + 1, text, ps, bolds, hf, hb => by
    match ps with
    | [] =>
      exact ⟨⟨by simp [trimPillsAux], by simp [trimPillsAux, RngsSep]⟩,
        by simp [trimPillsAux]⟩
    | p :: ps2 =>
      by_cases hps : p.start = 0
      · simp only [trimPillsAux, if_pos hps]
        have hb2 : PillsBase ps2 :=
          ⟨fun q hq => hb.1 q (List.mem_cons_of_mem _ hq), (List.pairwise_cons.mp hb.2).2⟩
        have hlen : (shiftRanges ps2 ((p.stop.toNat : Int) + (leadWS (text.drop p.stop.toNat) : Int))
            ((trimStartL (text.drop p.stop.toNat)).length : Int)).length < fuel :=
          lt_of_le_of_lt (shiftRanges_length_le ..) (by simpa using Nat.lt_of_succ_lt_succ hf)
        exact trimPillsAux_base fuel _ _ _ hlen (shiftRanges_pillsBase (by positivity) hb2)
      · simp only [trimPillsAux, if_neg hps]
        exact ⟨hb, Or.inr fun q hq => by
          simp only [List.head?_cons, Option.some.injEq] at hq
          rw [← hq]
          exact hps⟩

theorem trimLeadingPills_base (text : List Char) (ps bolds : List Rng) (hb : PillsBase ps) :
    PillsBase (trimLeadingPills text ps bolds).2.1 ∧
      ((trimLeadingPills text ps bolds).2.1 = [] ∨
        ∀ q, (trimLeadingPills text ps bolds).2.1.head? = some q → q.start ≠ 0) :=
  trimPillsAux_base (ps.length + 1) text ps bolds (by omega) hb

/-- From the basic pill invariant plus a non-zero head start, every pill
begins strictly after offset 0. -/
theorem pills_all_pos {ps : List Rng} (hb : PillsBase ps)
    (hh : ps = [] ∨ ∀ q, ps.head? = some q → q.start ≠ 0) :
    ∀ q ∈ ps, 0 < q.start := by
  match ps with
  | [] => simp
  | p :: rest =>
    rcases hh with h | hh
    · exact absurd h (by simp)
    · have hp0 : p.start ≠ 0 := hh p (by simp)
      have hp : 0 < p.start := lt_of_le_of_ne (hb.1 p (by simp)).1 (Ne.symm hp0)
      intro q hq
      rcases List.mem_cons.mp hq with rfl | hq2
      · exact hp
      · have hrel : p.stop ≤ q.start := (List.pairwise_cons.mp hb.2).1 q hq2
        have hps : p.start ≤ p.stop := (hb.1 p (by simp)).2
        omega

/-- Invariant carried through the `extractBlockText` walk: both interval
lists lie within `[0, L]` and are pairwise non-overlapping. -/
def WalkInv (L : Int) (pills bolds : List Rng) : Prop :=
  RngsWithin pills L ∧ RngsSep pills ∧ RngsWithin bolds L ∧ RngsSep bolds

theorem length_append_cast_le (raw s : List Char) :
    (raw.length : Int) ≤ ((raw ++ s).length : Int) := by
  simp [List.length_append]

theorem walkInv_mono {L L' : Int} {ps bs : List Rng} (h : WalkInv L ps bs) (hL : L ≤ L') :
    WalkInv L' ps bs :=
  ⟨rngsWithin_mono h.1 hL, h.2.1, rngsWithin_mono h.2.2.1 hL, h.2.2.2⟩

theorem append_interval_within {rs : List Rng} {L : Int} (h : RngsWithin rs L)
    (raw s : List Char) (hL : L ≤ (raw.length : Int)) :
    RngsWithin (rs ++ [⟨(raw.length : Int), ((raw ++ s).length : Int)⟩])
      ((raw ++ s).length : Int) := by
  intro q hq
  rcases List.mem_append.mp hq with hq | hq
  · have := h q hq
    have h2 := length_append_cast_le raw s
    exact ⟨this.1, this.2.1, by omega⟩
  · rcases List.mem_singleton.mp hq with rfl
    refine ⟨by positivity, length_append_cast_le raw s, le_refl _⟩

theorem append_interval_sep {rs : List Rng} {L : Int} (h : RngsWithin rs L) (hsep : RngsSep rs)
    (raw s : List Char) (hL : L ≤ (raw.length : Int)) :
    RngsSep (rs ++ [⟨(raw.length : Int), ((raw ++ s).length : Int)⟩]) := by
  unfold RngsSep
  rw [List.pairwise_append]
  refine ⟨hsep, List.pairwise_singleton _ _, ?_⟩
  intro a ha b hb
  rcases List.mem_singleton.mp hb with rfl
  have := (h a ha).2.2
  show a.stop ≤ (raw.length : Int)
  omega

mutual
theorem ebWalk_inv : ∀ (n : Dom) (b : Bool) (raw : List Char) (ps bs : List Rng),
    WalkInv (raw.length : Int) ps bs →
    WalkInv ((ebWalk n b raw ps bs).1.length : Int) (ebWalk n b raw ps bs).2.1
      (ebWalk n b raw ps bs).2.2
  | .text s, b, raw, ps, bs, h => by
    cases b
    · simpa only [ebWalk, Bool.false_eq_true, if_neg (by simp : ¬False)] using
        walkInv_mono h (length_append_cast_le raw s)
    · simp only [ebWalk, if_pos rfl]
      exact ⟨rngsWithin_mono h.1 (length_append_cast_le raw s), h.2.1,
        append_interval_within h.2.2.1 raw s (le_refl _),
        append_interval_sep h.2.2.1 h.2.2.2 raw s (le_refl _)⟩
  | .elem tag tid cs, b, raw, ps, bs, h => by
    simp only [ebWalk]
    split
    · exact ⟨append_interval_within h.1 raw (Dom.textContentList cs) (le_refl _),
        append_interval_sep h.1 h.2.1 raw (Dom.textContentList cs) (le_refl _),
        rngsWithin_mono h.2.2.1 (length_append_cast_le raw _), h.2.2.2⟩
    · exact ebWalkList_inv cs _ raw ps bs h

theorem ebWalkList_inv : ∀ (cs : List Dom) (b : Bool) (raw : List Char) (ps bs : List Rng),
    WalkInv (raw.length : Int) ps bs →
    WalkInv ((ebWalkList cs b raw ps bs).1.length : Int) (ebWalkList cs b raw ps bs).2.1
      (ebWalkList cs b raw ps bs).2.2
  | [], _, raw, ps, bs, h => h
  | c :: rest, b, raw, ps, bs, h => by
    simp only [ebWalkList]
    exact ebWalkList_inv rest b _ _ _ (ebWalk_inv c b raw ps bs h)
end

theorem mergeAux_inv : ∀ (cur : Rng) (rest : List Rng) (L : Int),
    (0 ≤ cur.start ∧ cur.start ≤ cur.stop ∧ cur.stop ≤ L) →
    RngsWithin rest L →
    (cur :: rest).Pairwise (fun a b => a.stop ≤ b.start) →
    RngsWithin (mergeAux cur rest) L ∧
      (mergeAux cur rest).Pairwise (fun a b => a.stop < b.start) ∧
      ∀ x ∈ mergeAux cur rest, cur.start ≤ x.start
  | cur, [], L, hcur, _, _ => by
    refine ⟨fun q hq => ?_, ?_, fun x hx => ?_⟩
    · rcases List.mem_singleton.mp hq with rfl; exact hcur
    · exact List.pairwise_singleton _ _
    · rcases List.mem_singleton.mp hx with rfl; exact le_refl _
  | cur, r :: rest, L, hcur, hrest, hsep => by
    have hcr : cur.stop ≤ r.start := (List.pairwise_cons.mp hsep).1 r (by simp)
    have hr := hrest r (by simp)
    have hrestTail : RngsWithin rest L := fun q hq => hrest q (List.mem_cons_of_mem _ hq)
    have hsepTail := (List.pairwise_cons.mp hsep).2
    by_cases hm : r.start ≤ cur.stop
    · simp only [mergeAux, if_pos hm]
      have hmerged : 0 ≤ (⟨cur.start, max cur.stop r.stop⟩ : Rng).start ∧
          (⟨cur.start, max cur.stop r.stop⟩ : Rng).start ≤ (⟨cur.start, max cur.stop r.stop⟩ : Rng).stop ∧
          (⟨cur.start, max cur.stop r.stop⟩ : Rng).stop ≤ L := by
        refine ⟨hcur.1, le_trans hcur.2.1 (le_max_left _ _), max_le hcur.2.2 hr.2.2⟩
      have hsep2 : (⟨cur.start, max cur.stop r.stop⟩ :: rest).Pairwise
          (fun a b => a.stop ≤ b.start) := by
        rw [List.pairwise_cons]
        refine ⟨fun x hx => ?_, (List.pairwise_cons.mp hsepTail).2⟩
        have h1 : cur.stop ≤ x.start := (List.pairwise_cons.mp hsep).1 x (List.mem_cons_of_mem _ hx)
        have h2 : r.stop ≤ x.start := (List.pairwise_cons.mp hsepTail).1 x hx
        exact max_le h1 h2
      obtain ⟨hw, hp, hs⟩ := mergeAux_inv _ rest L hmerged hrestTail hsep2
      exact ⟨hw, hp, fun x hx => hs x hx⟩
    · simp only [mergeAux, if_neg hm]
      obtain ⟨hw, hp, hs⟩ := mergeAux_inv r rest L hr hrestTail hsepTail
      push_neg at hm
      refine ⟨fun q hq => ?_, ?_, fun x hx => ?_⟩
      · rcases List.mem_cons.mp hq with rfl | hq2
        · exact hcur
        · exact hw q hq2
      · rw [List.pairwise_cons]
        exact ⟨fun x hx => lt_of_lt_of_le hm (hs x hx), hp⟩
      · rcases List.mem_cons.mp hx with rfl | hx2
        · exact le_refl _
        · have := hs x hx2
          have h2 := hcur.2.1
          omega

theorem mergeAux_strict : ∀ (cur : Rng) (rest : List Rng),
    cur.start < cur.stop → (∀ q ∈ rest, q.start < q.stop) →
    ∀ x ∈ mergeAux cur rest, x.start < x.stop
  | cur, [], hcur, _ => by
    intro x hx
    rcases List.mem_singleton.mp hx with rfl; exact hcur
  | cur, r :: rest, hcur, hrest => by
    by_cases hm : r.start ≤ cur.stop
    · simp only [mergeAux, if_pos hm]
      exact mergeAux_strict _ rest (lt_of_lt_of_le hcur (le_max_left _ _))
        fun q hq => hrest q (List.mem_cons_of_mem _ hq)
    · simp only [mergeAux, if_neg hm]
      intro x hx
      rcases List.mem_cons.mp hx with rfl | hx2
      · exact hcur
      · exact mergeAux_strict r rest (hrest r (by simp))
          (fun q hq => hrest q (List.mem_cons_of_mem _ hq)) x hx2

theorem mergeBolds_inv {bs : List Rng} {L : Int} (hw : RngsWithin bs L) (hsep : RngsSep bs) :
    RngsWithin (mergeBolds bs) L ∧
      (mergeBolds bs).Pairwise fun a b => a.stop < b.start := by
  match bs with
  | [] => exact ⟨fun q hq => absurd hq (by simp [mergeBolds]), by simp [mergeBolds]⟩
  | b :: rest =>
    have := mergeAux_inv b rest L (hw b (by simp))
      (fun q hq => hw q (List.mem_cons_of_mem _ hq)) hsep
    exact ⟨this.1, this.2.1⟩

/-- The pill list returned by `extractBlockText` always satisfies the
basic pill invariant. -/
theorem extractBlockText_pillsBase (node : Dom) : PillsBase (extractBlockText node).pills := by
  have h := ebWalk_inv node false [] [] []
    ⟨fun q hq => absurd hq (by simp), List.Pairwise.nil,
     fun q hq => absurd hq (by simp), List.Pairwise.nil⟩
  simp only [extractBlockText]
  split
  · exact shiftRanges_pillsBase (by positivity)
      ⟨fun q hq => ⟨(h.1 q hq).1, (h.1 q hq).2.1⟩, h.2.1⟩
  · exact ⟨fun q hq => ⟨(h.1 q hq).1, (h.1 q hq).2.1⟩, h.2.1⟩

/-! ## C4: no leading citation pill -/

theorem startTrimStage_pills (root : Dom) (r : SRange) (startP p : List Nat) (node : Dom)
    (ext : BlockExtract) (h : PillsBase ext.pills) :
    PillsBase (startTrimStage root r startP p node ext).2.1 := by
  unfold startTrimStage
  split
  · dsimp only
    split
    · exact shiftRanges_pillsBase (Int.natCast_nonneg _) h
    · exact h
  · exact h

theorem endTrimStage_pills (root : Dom) (r : SRange) (endP p : List Nat) (node : Dom)
    (s1 : List Char × List Rng × List Rng × Bool) (h : PillsBase s1.2.1) :
    PillsBase (endTrimStage root r endP p node s1).2.1 := by
  unfold endTrimStage
  rcases s1 with ⟨bt, bp, bb, ifs⟩
  split
  · dsimp only
    split
    · exact shiftRanges_pillsBase (Int.natCast_nonneg _) h
    · exact h
  · exact h

theorem leadPillStage_pills (s2 : List Char × List Rng × List Rng × Bool)
    (h : PillsBase s2.2.1) :
    PillsBase (leadPillStage true s2).2.1 ∧
      ((leadPillStage true s2).2.1 = [] ∨
        ∀ q, (leadPillStage true s2).2.1.head? = some q → q.start ≠ 0) := by
  rcases s2 with ⟨bt, bp, bb, ifs⟩
  unfold leadPillStage
  simp only [eq_self_iff_true, if_true]
  cases bp with
  | nil => exact ⟨h, Or.inl rfl⟩
  | cons q0 rest =>
    by_cases hq : q0.start = 0
    · simpa only [if_pos hq] using trimLeadingPills_base bt (q0 :: rest) bb h
    · simp only [if_neg hq]
      exact ⟨h, Or.inr fun q hq2 => by
        simp only [List.head?_cons, Option.some.injEq] at hq2
        rw [← hq2]; exact hq⟩

/-- Every pill interval produced by the multi-block per-block pipeline
with `isFirst = true` starts strictly after offset 0. -/
theorem multiBlockText_first_pills (root : Dom) (r : SRange) (startP endP p : List Nat)
    (node : Dom) :
    ∀ q ∈ (multiBlockText root r startP endP true p node).2.1, 0 < q.start := by
  unfold multiBlockText
  have h0 := extractBlockText_pillsBase node
  have h1 := startTrimStage_pills root r startP p node _ h0
  have h2 := endTrimStage_pills root r endP p node _ h1
  have h3 := leadPillStage_pills _ h2
  exact pills_all_pos h3.1 h3.2

theorem leadPillTrimSingle_pills (sentence : List Char) (ps bs : List Rng)
    (h : PillsBase ps) :
    PillsBase (leadPillTrimSingle sentence ps bs).2.1 ∧
      ((leadPillTrimSingle sentence ps bs).2.1 = [] ∨
        ∀ q, (leadPillTrimSingle sentence ps bs).2.1.head? = some q → q.start ≠ 0) := by
  unfold leadPillTrimSingle
  cases ps with
  | nil => exact ⟨h, Or.inl rfl⟩
  | cons q0 rest =>
    by_cases hq : q0.start = 0
    · simpa only [if_pos hq] using trimLeadingPills_base sentence (q0 :: rest) bs h
    · simp only [if_neg hq]
      exact ⟨h, Or.inr fun q hq2 => by
        simp only [List.head?_cons, Option.some.injEq] at hq2
        rw [← hq2]; exact hq⟩

/-- A block descriptor never records a citation interval starting at
offset 0 among … (head-of-list form used by the C4 proof). -/
def MetaPillsPos (m : BlockMeta) : Prop :=
  ∀ pl, m.pills = some pl → ∀ q ∈ pl, 0 < q.start

theorem multiFold_c4 (root : Dom) (r : SRange) (startP endP : List Nat) :
    ∀ (sel : List (List Nat × Dom)) (st : List (List Char) × List BlockMeta × Option (List Nat)),
      st.1.length = st.2.1.length →
      (∀ m, st.2.1.head? = some m → MetaPillsPos m) →
      (sel.foldl (multiStep root r startP endP) st).1.length
          = (sel.foldl (multiStep root r startP endP) st).2.1.length ∧
        ∀ m, (sel.foldl (multiStep root r startP endP) st).2.1.head? = some m → MetaPillsPos m
  | [], _, hlen, hhead => ⟨hlen, hhead⟩
  | pd :: rest, st, hlen, hhead => by
    rw [List.foldl_cons]
    have hstep : (multiStep root r startP endP st pd).1.length
        = (multiStep root r startP endP st pd).2.1.length ∧
        ∀ m, (multiStep root r startP endP st pd).2.1.head? = some m → MetaPillsPos m := by
      rcases st with ⟨blocks, metas, prevLI⟩
      simp only at hlen hhead
      simp only [multiStep]
      rcases hmb : multiBlockText root r startP endP blocks.isEmpty pd.1 pd.2
        with ⟨bt, bp, bb, ifs⟩
      by_cases hbt : bt.isEmpty
      · simpa [hbt] using ⟨hlen, hhead⟩
      · simp only [hbt, Bool.false_eq_true, if_false]
        refine ⟨by simp [hlen], ?_⟩
        cases metas with
        | cons m0 ms => simpa using hhead
        | nil =>
          have hblocks : blocks = [] := List.length_eq_zero.mp (by simpa using hlen)
          subst hblocks
          intro m hm
          simp only [List.nil_append, List.head?_cons, Option.some.injEq] at hm
          intro pl hpl q hq
          have hpos := multiBlockText_first_pills root r startP endP pd.1 pd.2
          simp only [List.isEmpty_nil] at hmb
          rw [hmb] at hpos
          have hpills : m.pills = some bp := by
            rw [← hm]; simp [mkBlockMeta]
          rw [hpills] at hpl
          cases hpl
          exact hpos q hq
    exact multiFold_c4 root r startP endP rest _ hstep.1 hstep.2

theorem clampShift_pillsBase {arr : List Rng} {off len : Int} (hlen : 0 ≤ len)
    (h : PillsBase arr) : PillsBase (clampShift arr off len) := by
  rw [clampShift_eq_shiftRanges]
  exact shiftRanges_pillsBase hlen h

theorem pillsOpt_pos (sentence : List Char) (ps bs : List Rng) (h : PillsBase ps) :
    ∀ pl, (if (leadPillTrimSingle sentence ps bs).2.1.isEmpty then none
        else some (leadPillTrimSingle sentence ps bs).2.1) = some pl →
      ∀ q ∈ pl, 0 < q.start := by
  intro pl hpl
  split at hpl
  · exact absurd hpl (by simp)
  · cases hpl
    have h2 := leadPillTrimSingle_pills sentence ps bs h
    exact pills_all_pos h2.1 h2.2

theorem singlePath_c4 (root : Dom) (r : SRange) (p : List Nat) (node : Dom) :
    ∀ m, (singlePath root r p node).2.head? = some m → MetaPillsPos m := by
  intro m hm
  unfold singlePath at hm
  dsimp only at hm
  split_ifs at hm
  all_goals
    simp only [List.head?_nil, List.head?_cons, Option.some.injEq] at hm
  all_goals try exact Option.noConfusion hm
  all_goals
    intro pl hpl q hq
    rw [← hm] at hpl
    dsimp only at hpl
  all_goals try exact Option.noConfusion hpl
  all_goals
    cases hpl
    exact pills_all_pos
      (leadPillTrimSingle_pills _ _ _
        (clampShift_pillsBase (Int.natCast_nonneg _) (extractBlockText_pillsBase node))).1
      (leadPillTrimSingle_pills _ _ _
        (clampShift_pillsBase (Int.natCast_nonneg _) (extractBlockText_pillsBase node))).2
      q hq

theorem multiExtract_len (root : Dom) (r : SRange) (sel : List (List Nat × Dom)) :
    (multiExtract root r sel).1.length = (multiExtract root r sel).2.length := by
  unfold multiExtract
  exact (multiFold_c4 root r _ _ sel ([], [], none) rfl (by simp)).1

/-- C4: for every extracted context — single-block and multi-block paths
alike — the first contributed block never has a citation interval
starting at offset 0: every citation interval recorded in the first
block descriptor starts strictly after 0. -/
theorem c4_no_leading_citation (root : Dom) (r : SRange) (res : Option (List Char))
    (metas : List BlockMeta) (h : extractSentenceInContainer root r = (res, metas))
    (m : BlockMeta) (hm : metas.head? = some m) (pl : List Rng) (hpl : m.pills = some pl) :
    ∀ q ∈ pl, 0 < q.start := by
  unfold extractSentenceInContainer at h
  dsimp only at h
  split at h
  · rw [Prod.mk.injEq] at h
    obtain ⟨h1, h2⟩ := h
    subst h2
    simp at hm
  · rename_i sb rest heq
    split at h
    · -- no block after the first: the multi path is skipped
      split at h
      · rw [Prod.mk.injEq] at h
        obtain ⟨h1, h2⟩ := h
        subst h2
        exact singlePath_c4 root r sb.1 sb.2 m hm pl hpl
      · rename_i hc
        simp at hc
    · -- several touched blocks
      split at h
      · -- the multi path contributed nothing: fall through to the single path
        rename_i hempty
        rw [Prod.mk.injEq] at h
        obtain ⟨h1, h2⟩ := h
        subst h2
        have hmm : (multiExtract root r (sb :: rest)).2 = [] := by
          have hlen2 := multiExtract_len root r (sb :: rest)
          rw [List.isEmpty_iff] at hempty
          rw [hempty] at hlen2
          exact List.length_eq_zero.mp hlen2.symm
        rw [hmm, List.nil_append] at hm
        exact singlePath_c4 root r sb.1 sb.2 m hm pl hpl
      · rw [Prod.mk.injEq] at h
        obtain ⟨h1, h2⟩ := h
        subst h2
        unfold multiExtract at hm
        exact (multiFold_c4 root r _ _ (sb :: rest) ([], [], none) rfl (by simp)).2 m hm pl hpl

/-- A paragraph containing a citation pill away from offset 0, for the
C4 witness. -/
def c4Container : Dom :=
  .elem "DIV" none
    [.elem "P" none
      [.text (str "See "), .elem "SPAN" (some "webpage-citation-pill") [.text (str "1")],
       .text (str " ok.")]]

def c4Range : SRange := ⟨[0, 0], 0, [0, 0], 3⟩

def c4Meta : BlockMeta :=
  { tag := "P", depth := 0, lineCount := 1, listType := "ul", listStart := 1,
    pills := some [⟨4, 5⟩], bolds := none }

/-- C4 witness: a concrete extraction whose only block descriptor has a
citation interval, which starts strictly after offset 0. -/
theorem c4_no_leading_citation_witness :
    (extractSentenceInContainer c4Container c4Range = (some (str "See 1 ok."), [c4Meta]) ∧
      ([c4Meta] : List BlockMeta).head? = some c4Meta ∧ c4Meta.pills = some [⟨4, 5⟩]) ∧
    ∀ q ∈ ([⟨4, 5⟩] : List Rng), 0 < q.start :=
  ⟨⟨by decide, by decide, by decide⟩,
    c4_no_leading_citation c4Container c4Range (some (str "See 1 ok.")) [c4Meta] (by decide)
      c4Meta (by decide) [⟨4, 5⟩] (by decide)⟩

/-! ## C3: interval validity — counterexample and corrected statement -/

/-- An AI-response container whose second paragraph holds two adjacent
citation pills followed by a bold span with a trailing space. -/
def c3Container : Dom :=
  .elem "DIV" none
    [.elem "P" none [.text (str "Hello.")],
     .elem "P" none
       [.elem "SPAN" (some "webpage-citation-pill") [.text (str "x")],
        .elem "SPAN" (some "webpage-citation-pill") [.text (str "y")],
        .elem "STRONG" none [.text (str "z ")]]]

/-- A selection from the first paragraph to the end of the container
(so the second paragraph is intersected but does not contain the range
end). -/
def c3Range : SRange := ⟨[0, 0], 0, [], 2⟩

def c3SecondMeta : BlockMeta :=
  { tag := "P", depth := 0, lineCount := 1, listType := "ul", listStart := 1,
    pills := some [⟨0, 1⟩, ⟨1, 2⟩], bolds := some [⟨2, 4⟩] }

/-- C3 counterexample: the claim "`0 ≤ start < end ≤ block length` and no
two intervals of the same kind overlap or touch" is false as stated.  On
this input the second contributed block has local text `"xyz"` of length
3, yet its descriptor records the bold interval `[2, 4)` (end exceeds
the block length, because the leading-whitespace adjustment of
`extractBlockText` does not run when there is no leading whitespace),
and its two citation intervals `[0, 1)` and `[1, 2)` touch. -/
theorem c3_offset_validity_counterexample :
    (extractSentenceInContainer c3Container c3Range).1 = some (str "Hello.\nxyz") ∧
    (extractSentenceInContainer c3Container c3Range).2[1]? = some c3SecondMeta ∧
    (splitNl (str "Hello.\nxyz"))[1]? = some (str "xyz") ∧
    (str "xyz").length = 3 ∧
    c3SecondMeta.bolds = some [⟨2, 4⟩] ∧ ¬ ((4 : Int) ≤ 3) ∧
    c3SecondMeta.pills = some [⟨0, 1⟩, ⟨1, 2⟩] ∧
    (Rng.stop ⟨0, 1⟩ = Rng.start ⟨1, 2⟩) := by
  refine ⟨by decide, by decide, by decide, by decide, by decide, by decide,
    by decide, by decide⟩

mutual
/-- Every text node outside citation pills is non-empty, and every
citation pill has non-empty text content. -/
def noEmptyText : Dom → Bool
  | .text s => !s.isEmpty
  | .elem _ tid cs =>
    if tid = some "webpage-citation-pill" then !(Dom.textContentList cs).isEmpty
    else noEmptyTextList cs

def noEmptyTextList : List Dom → Bool
  | [] => true
  | c :: rest => noEmptyText c && noEmptyTextList rest
end

mutual
theorem ebWalk_strict : ∀ (n : Dom) (b : Bool) (raw : List Char) (ps bs : List Rng),
    noEmptyText n = true →
    (∀ q ∈ ps, q.start < q.stop) → (∀ q ∈ bs, q.start < q.stop) →
    (∀ q ∈ (ebWalk n b raw ps bs).2.1, q.start < q.stop) ∧
      ∀ q ∈ (ebWalk n b raw ps bs).2.2, q.start < q.stop
  | .text s, b, raw, ps, bs, hne, hp, hb => by
    simp only [noEmptyText, Bool.not_eq_true', List.isEmpty_eq_false] at hne
    cases b
    · simpa only [ebWalk, Bool.false_eq_true, if_neg (by simp : ¬False)] using ⟨hp, hb⟩
    · simp only [ebWalk, if_pos rfl]
      refine ⟨hp, fun q hq => ?_⟩
      rcases List.mem_append.mp hq with hq | hq
      · exact hb q hq
      · rcases List.mem_singleton.mp hq with rfl
        have : 0 < s.length := List.length_pos.mpr hne
        simp only [List.length_append]
        omega
  | .elem tag tid cs, b, raw, ps, bs, hne, hp, hb => by
    simp only [ebWalk]
    split
    · rename_i hpill
      simp only [noEmptyText, if_pos hpill, Bool.not_eq_true', List.isEmpty_eq_false] at hne
      refine ⟨fun q hq => ?_, hb⟩
      rcases List.mem_append.mp hq with hq | hq
      · exact hp q hq
      · rcases List.mem_singleton.mp hq with rfl
        have : 0 < (Dom.textContentList cs).length := List.length_pos.mpr hne
        simp only [List.length_append]
        omega
    · rename_i hpill
      simp only [noEmptyText, if_neg hpill] at hne
      exact ebWalkList_strict cs _ raw ps bs hne hp hb

theorem ebWalkList_strict : ∀ (cs : List Dom) (b : Bool) (raw : List Char) (ps bs : List Rng),
    noEmptyTextList cs = true →
    (∀ q ∈ ps, q.start < q.stop) → (∀ q ∈ bs, q.start < q.stop) →
    (∀ q ∈ (ebWalkList cs b raw ps bs).2.1, q.start < q.stop) ∧
      ∀ q ∈ (ebWalkList cs b raw ps bs).2.2, q.start < q.stop
  | [], _, raw, ps, bs, _, hp, hb => ⟨hp, hb⟩
  | c :: rest, b, raw, ps, bs, hne, hp, hb => by
    simp only [noEmptyTextList, Bool.and_eq_true] at hne
    simp only [ebWalkList]
    have hc := ebWalk_strict c b raw ps bs hne.1 hp hb
    exact ebWalkList_strict rest b _ _ _ hne.2 hc.1 hc.2
end

theorem trimStartL_head_not_ws : ∀ (s : List Char) (c : Char) (cs : List Char),
    trimStartL s = c :: cs → isWS c = false := by
  intro s
  induction s with
  | nil => intro c cs h; exact absurd h (by simp [trimStartL])
  | cons a as ih =>
    intro c cs h
    by_cases ha : isWS a = true
    · exact ih c cs (by simpa [trimStartL, List.dropWhile_cons, ha] using h)
    · rw [trimStartL, List.dropWhile_cons, if_neg (by simp [ha])] at h
      cases h
      simpa using ha

theorem trimEndL_eq_nil_iff (s : List Char) : trimEndL s = [] ↔ ∀ c ∈ s, isWS c = true := by
  unfold trimEndL
  rw [List.reverse_eq_nil_iff, List.dropWhile_eq_nil_iff]
  constructor
  · intro h c hc; exact h c (List.mem_reverse.mpr hc)
  · intro h c hc; exact h c (List.mem_reverse.mp hc)

/-- When the trimmed block text is empty, the leading-whitespace count is
the full raw length. -/
theorem trimL_nil_leadWS (raw : List Char) (h : trimL raw = []) : leadWS raw = raw.length := by
  unfold trimL at h
  rcases hts : trimStartL raw with _ | ⟨c, cs⟩
  · unfold leadWS
    rw [hts]
    simp
  · rw [hts] at h
    have hws := (trimEndL_eq_nil_iff (c :: cs)).mp h c (by simp)
    have := trimStartL_head_not_ws raw c cs hts
    rw [this] at hws
    exact absurd hws (by simp)

theorem trimL_length_le (s : List Char) : (trimL s).length ≤ s.length := by
  unfold trimL trimEndL trimStartL
  calc ((s.dropWhile isWS).reverse.dropWhile isWS).reverse.length
      = ((s.dropWhile isWS).reverse.dropWhile isWS).length := List.length_reverse _
    _ ≤ (s.dropWhile isWS).reverse.length := (List.dropWhile_sublist _).length_le
    _ = (s.dropWhile isWS).length := List.length_reverse _
    _ ≤ s.length := (List.dropWhile_sublist _).length_le

theorem shiftRanges_eq_nil {arr : List Rng} {shift textLen : Int}
    (h : ∀ q ∈ arr, q.stop ≤ shift) : shiftRanges arr shift textLen = [] := by
  unfold shiftRanges
  rw [List.filterMap_eq_nil_iff]
  intro q hq
  rw [if_neg]
  simp only [Bool.and_eq_true, decide_eq_true_eq, not_and]
  intro hgt
  exact absurd hgt (by have := h q hq; omega)

theorem shiftRanges_strict_pos {arr : List Rng} {shift textLen : Int} (hlen : 1 ≤ textLen)
    (h : ∀ q ∈ arr, q.start < q.stop) :
    ∀ q ∈ shiftRanges arr shift textLen, q.start < q.stop := by
  intro q hq
  obtain ⟨r, hr, h1, h2, rfl⟩ := shiftRanges_mem hq
  have := h r hr
  show max 0 (r.start - shift) < min textLen (r.stop - shift)
  omega

theorem shiftRanges_sepStrict {arr : List Rng} {shift textLen : Int}
    (hss : ∀ q ∈ arr, q.start < q.stop) (hsep : arr.Pairwise fun a b => a.stop < b.start) :
    (shiftRanges arr shift textLen).Pairwise fun a b => a.stop < b.start := by
  unfold shiftRanges
  rw [List.pairwise_filterMap]
  refine hsep.imp_of_mem ?_
  intro a b ha hb hab q1 hq1 q2 hq2
  simp only [Option.mem_def] at hq1 hq2
  split at hq1
  · rename_i hc1
    simp only [Bool.and_eq_true, decide_eq_true_eq] at hc1
    cases hq1
    split at hq2
    · rename_i hc2
      simp only [Bool.and_eq_true, decide_eq_true_eq] at hc2
      cases hq2
      have h2 := hss a ha
      have h3 := hss b hb
      show min textLen (a.stop - shift) < max 0 (b.start - shift)
      omega
    · exact absurd hq2 (by simp)
  · exact absurd hq1 (by simp)

/-- C3 (amended): for every block whose text nodes and citation pills
contain at least one character, every citation/bold interval recorded by
`extractBlockText` satisfies `0 ≤ start < end ≤ L`, where `L` is the
length of the block's raw (untrimmed) text; no two bold intervals
overlap or touch; and citation intervals never overlap, though
consecutive citation intervals may touch. -/
theorem c3_offset_validity_amended (node : Dom) (h : noEmptyText node = true) :
    (∀ q ∈ (extractBlockText node).pills,
        0 ≤ q.start ∧ q.start < q.stop ∧ q.stop ≤ ((Dom.textContent node).length : Int)) ∧
    RngsSep (extractBlockText node).pills ∧
    (∀ q ∈ (extractBlockText node).bolds,
        0 ≤ q.start ∧ q.start < q.stop ∧ q.stop ≤ ((Dom.textContent node).length : Int)) ∧
    (extractBlockText node).bolds.Pairwise (fun a b => a.stop < b.start) := by
  have hbase : WalkInv (([] : List Char).length : Int) ([] : List Rng) ([] : List Rng) :=
    ⟨fun q hq => absurd hq (by simp), List.Pairwise.nil, fun q hq => absurd hq (by simp),
     List.Pairwise.nil⟩
  have hw := ebWalk_inv node false [] [] [] hbase
  have hs := ebWalk_strict node false [] [] [] h (by simp) (by simp)
  have hraw : (ebWalk node false [] [] []).1 = Dom.textContent node := by
    simpa using ebWalk_raw node false [] [] []
  rw [hraw] at hw
  have hmergeInv := mergeBolds_inv hw.2.2.1 hw.2.2.2
  have hmergeStrict : ∀ q ∈ mergeBolds (ebWalk node false [] [] []).2.2, q.start < q.stop := by
    rcases hbs : (ebWalk node false [] [] []).2.2 with _ | ⟨b0, rest⟩
    · simp [mergeBolds]
    · have := mergeAux_strict b0 rest (hs.2 b0 (by rw [hbs]; simp))
        fun q hq => hs.2 q (by rw [hbs]; exact List.mem_cons_of_mem _ hq)
      simpa [mergeBolds] using this
  have htrimle : ((trimL (Dom.textContent node)).length : Int)
      ≤ ((Dom.textContent node).length : Int) := by
    exact_mod_cast trimL_length_le _
  unfold extractBlockText
  dsimp only
  rw [hraw]
  split
  · rename_i hlw
    dsimp only
    by_cases h0 : (trimL (Dom.textContent node)).length = 0
    · have hnil : ∀ (arr : List Rng), (∀ q ∈ arr, q.stop ≤ ((Dom.textContent node).length : Int)) →
          shiftRanges arr ((leadWS (Dom.textContent node) : Nat) : Int)
            ((trimL (Dom.textContent node)).length : Int) = [] := by
        intro arr harr
        refine shiftRanges_eq_nil fun q hq => ?_
        have h1 := harr q hq
        have h2 := trimL_nil_leadWS (Dom.textContent node) (List.length_eq_zero.mp h0)
        rw [h2]
        exact h1
      rw [hnil _ fun q hq => (hw.1 q hq).2.2, hnil _ fun q hq => (hmergeInv.1 q hq).2.2]
      exact ⟨fun q hq => absurd hq (by simp), List.Pairwise.nil,
        fun q hq => absurd hq (by simp), List.Pairwise.nil⟩
    · have h1 : (1 : Int) ≤ ((trimL (Dom.textContent node)).length : Int) := by
        have := Nat.one_le_iff_ne_zero.mpr h0
        exact_mod_cast this
      refine ⟨fun q hq => ?_, ?_, fun q hq => ?_, ?_⟩
      · have hwin := rngsWithin_mono
          (shiftRanges_within (by omega) fun q hq => (hw.1 q hq).2.1) htrimle q hq
        have hst := shiftRanges_strict_pos h1 hs.1 q hq
        exact ⟨hwin.1, hst, hwin.2.2⟩
      · exact shiftRanges_sep (fun q hq => (hw.1 q hq).2.1) hw.2.1
      · have hwin := rngsWithin_mono
          (shiftRanges_within (by omega) fun q hq => (hmergeInv.1 q hq).2.1) htrimle q hq
        have hst := shiftRanges_strict_pos h1 hmergeStrict q hq
        exact ⟨hwin.1, hst, hwin.2.2⟩
      · exact shiftRanges_sepStrict hmergeStrict hmergeInv.2
  · dsimp only
    refine ⟨fun q hq => ?_, hw.2.1, fun q hq => ?_, hmergeInv.2⟩
    · have hwin := hw.1 q hq
      exact ⟨hwin.1, hs.1 q hq, hwin.2.2⟩
    · have hwin := hmergeInv.1 q hq
      exact ⟨hwin.1, hmergeStrict q hq, hwin.2.2⟩

/-- A small block with one plain text node, one bold span and one
citation pill, for the C3 witness. -/
def c3WitnessNode : Dom :=
  .elem "P" none
    [.text (str "a "), .elem "STRONG" none [.text (str "b")],
     .elem "SPAN" (some "webpage-citation-pill") [.text (str "c")]]

/-- C3 witness: the amended interval properties on a concrete block. -/
theorem c3_offset_validity_amended_witness :
    noEmptyText c3WitnessNode = true ∧
    ((∀ q ∈ (extractBlockText c3WitnessNode).pills,
        0 ≤ q.start ∧ q.start < q.stop ∧
          q.stop ≤ ((Dom.textContent c3WitnessNode).length : Int)) ∧
      RngsSep (extractBlockText c3WitnessNode).pills ∧
      (∀ q ∈ (extractBlockText c3WitnessNode).bolds,
        0 ≤ q.start ∧ q.start < q.stop ∧
          q.stop ≤ ((Dom.textContent c3WitnessNode).length : Int)) ∧
      (extractBlockText c3WitnessNode).bolds.Pairwise fun a b => a.stop < b.start) :=
  ⟨by decide, c3_offset_validity_amended c3WitnessNode (by decide)⟩

/-! ## Storage model (`src/storage.js`)

The `chrome.storage.local` value under `jumpreturn_highlights` is passed
explicitly as a list; `isContextValid()` becomes the `valid` flag;
`crypto.randomUUID()` and `Date.now()` become the `genId`/`now`
parameters. -/

/-- The persisted highlight record built by `saveHighlight`. -/
structure StoredHighlight where
  id : String
  text : String
  sentence : Option String
  blockTypes : Option (List BlockMeta)
  responseHTML : Option String
  url : String
  site : String
  parentId : Option String
  sourceTurnIndex : Option Int
  questionIndex : Option Int
  responseIndex : Option Int
  createdAt : Nat
deriving DecidableEq, Repr

/-- The options object accepted by `saveHighlight`. -/
structure SaveOpts where
  id : Option String
  text : String
  sentence : Option String
  blockTypes : Option (List BlockMeta)
  responseHTML : Option String
  url : String
  site : String
  parentId : Option String
  sourceTurnIndex : Option Int
  questionIndex : Option Int
  responseIndex : Option Int
deriving DecidableEq, Repr

/-- The JavaScript `x || null` coalescing on an optional string (an empty
string is falsy and becomes `null`). -/
def orNullStr : Option String → Option String
  | some "" => none
  | x => x

/-- Model of `saveHighlight(opts)`: check context validity, read the
stored list, push one new record, write the list back.  Returns the new
stored list and the function's return value. -/
def saveHighlight (valid : Bool) (store : List StoredHighlight) (opts : SaveOpts)
    (genId : String) (now : Nat) : List StoredHighlight × Option StoredHighlight :=
  if !valid then (store, none)
  else
    let newH : StoredHighlight :=
      { id := match opts.id with
              | none => genId
              | some "" => genId
              | some i => i,
        text := opts.text, sentence := orNullStr opts.sentence,
        blockTypes := opts.blockTypes, responseHTML := orNullStr opts.responseHTML,
        url := opts.url, site := opts.site, parentId := opts.parentId,
        sourceTurnIndex := opts.sourceTurnIndex, questionIndex := opts.questionIndex,
        responseIndex := opts.responseIndex, createdAt := now }
    (store ++ [newH], some newH)

/-- C10: `saveHighlight` appends exactly one new record to the end of the
stored list, leaving every previously stored record unchanged; when the
extension runtime context is invalid it returns `null` and the stored
list is not modified at all. -/
theorem c10_saveHighlight_appends (valid : Bool) (store : List StoredHighlight)
    (opts : SaveOpts) (genId : String) (now : Nat) :
    (valid = true → ∀ h', (saveHighlight valid store opts genId now).2 = some h' →
      (saveHighlight valid store opts genId now).1 = store ++ [h']) ∧
    (valid = true → (saveHighlight valid store opts genId now).2.isSome) ∧
    (valid = false → (saveHighlight valid store opts genId now).1 = store ∧
      (saveHighlight valid store opts genId now).2 = none) := by
  cases valid
  · refine ⟨fun h => absurd h (by simp), fun h => absurd h (by simp), fun _ => ?_⟩
    simp [saveHighlight]
  · refine ⟨fun _ h' hh => ?_, fun _ => by simp [saveHighlight], fun h => absurd h (by simp)⟩
    simp only [saveHighlight, Bool.not_true, Bool.false_eq_true, if_false] at hh ⊢
    simp only [Option.some.injEq] at hh
    rw [hh]

def c10Prior : StoredHighlight :=
  { id := "prior", text := "old", sentence := none, blockTypes := none, responseHTML := none,
    url := "u", site := "chatgpt", parentId := none, sourceTurnIndex := none,
    questionIndex := none, responseIndex := none, createdAt := 1 }

def c10Opts : SaveOpts :=
  { id := none, text := "hello", sentence := some "", blockTypes := none,
    responseHTML := none, url := "u", site := "chatgpt", parentId := none,
    sourceTurnIndex := some 3, questionIndex := some 4, responseIndex := some 5 }

def c10New : StoredHighlight :=
  { id := "uuid-1", text := "hello", sentence := none, blockTypes := none,
    responseHTML := none, url := "u", site := "chatgpt", parentId := none,
    sourceTurnIndex := some 3, questionIndex := some 4, responseIndex := some 5,
    createdAt := 42 }

/-- C10 witness: a concrete valid save appends the one new record, and a
concrete invalid save changes nothing and returns `null`. -/
theorem c10_saveHighlight_appends_witness :
    (saveHighlight true [c10Prior] c10Opts "uuid-1" 42).1 = [c10Prior] ++ [c10New] ∧
    ((saveHighlight false [c10Prior] c10Opts "uuid-1" 42).1 = [c10Prior] ∧
      (saveHighlight false [c10Prior] c10Opts "uuid-1" 42).2 = none) :=
  ⟨(c10_saveHighlight_appends true [c10Prior] c10Opts "uuid-1" 42).1 rfl c10New (by decide),
   (c10_saveHighlight_appends false [c10Prior] c10Opts "uuid-1" 42).2.2 rfl⟩

/-! ## C8: cascading delete -/

/-- The `(id, parentId)` links the recursive `collectDescendants` walk
actually consults. -/
def linksOf (hs : List StoredHighlight) : List (String × Option String) :=
  hs.map fun h => (h.id, h.parentId)

/-- Model of the recursive `collectDescendants` of `deleteHighlight`:
add the current id, then recurse into every record whose `parentId`
equals it.  The source recursion terminates because realistic data is
acyclic; here the recursion is paced by a fuel argument that
`deleteHighlight` seeds with more rounds than records, which suffices for
every acyclic store (and returns `none` exactly where the source would
recurse forever). -/
def collectDescendants (links : List (String × Option String)) :
    Nat → String → List String → Option (List String)
  | 0, _, _ => none
  | fuel + 1, p, acc =>
    (links.filter fun l => l.2 = some p).foldlM
      (fun a c => collectDescendants links fuel c.1 a) (acc ++ [p])

/-- Model of `deleteHighlight(id)`: collect the descendant set and keep
only the records outside it. -/
def deleteHighlight (valid : Bool) (hs : List StoredHighlight) (id : String) :
    Option (List StoredHighlight) :=
  if !valid then some hs
  else (collectDescendants (linksOf hs) (hs.length + 1) id []).map fun ids =>
    hs.filter fun h => !ids.contains h.id

/-- `Desc links root x`: the id `x` is reached from `root` by a chain of
`parentId` links ("every highlight whose parentId chain leads back to
it"). -/
inductive Desc (links : List (String × Option String)) : String → String → Prop
  | refl (a : String) : Desc links a a
  | head {a b : String} {l : String × Option String} (hl : l ∈ links) (hp : l.2 = some a)
      (hd : Desc links l.1 b) : Desc links a b

theorem collect_mono (links : List (String × Option String)) :
    ∀ (f : Nat) (p : String) (acc r : List String),
      collectDescendants links f p acc = some r → ∀ x, (x ∈ acc ∨ x = p) → x ∈ r := by
  intro f
  induction f with
  | zero => intro p acc r h; exact absurd h (by simp [collectDescendants])
  | succ f ih =>
    intro p acc r h x hx
    simp only [collectDescendants] at h
    have hfold : ∀ (ls : List (String × Option String)) (a r' : List String),
        ls.foldlM (fun a c => collectDescendants links f c.1 a) a = some r' →
        ∀ y ∈ a, y ∈ r' := by
      intro ls
      induction ls with
      | nil =>
        intro a r' hh y hy
        simp only [List.foldlM_nil] at hh
        cases hh
        exact hy
      | cons c rest ihl =>
        intro a r' hh y hy
        rw [List.foldlM_cons] at hh
        rcases hmid : collectDescendants links f c.1 a with _ | a'
        · rw [hmid] at hh; exact absurd hh (by simp)
        · rw [hmid] at hh
          simp only [Option.bind_eq_bind, Option.some_bind] at hh
          exact ihl a' r' hh y (ih c.1 a a' hmid y (Or.inl hy))
    refine hfold _ _ _ h x ?_
    rcases hx with hx | rfl
    · exact List.mem_append.mpr (Or.inl hx)
    · simp

theorem collect_fold_mono (links : List (String × Option String)) (f : Nat) :
    ∀ (ls : List (String × Option String)) (a r : List String),
      ls.foldlM (fun a c => collectDescendants links f c.1 a) a = some r →
      ∀ y ∈ a, y ∈ r := by
  intro ls
  induction ls with
  | nil =>
    intro a r hh y hy
    simp only [List.foldlM_nil] at hh
    cases hh
    exact hy
  | cons c rest ihl =>
    intro a r hh y hy
    rw [List.foldlM_cons] at hh
    rcases hmid : collectDescendants links f c.1 a with _ | a'
    · rw [hmid] at hh; exact absurd hh (by simp)
    · rw [hmid] at hh
      simp only [Option.bind_eq_bind, Option.some_bind] at hh
      exact ihl a' r hh y (collect_mono links f c.1 a a' hmid y (Or.inl hy))

theorem collect_sound (links : List (String × Option String)) :
    ∀ (f : Nat) (p : String) (acc r : List String),
      collectDescendants links f p acc = some r →
      ∀ x ∈ r, x ∈ acc ∨ Desc links p x := by
  intro f
  induction f with
  | zero => intro p acc r h; exact absurd h (by simp [collectDescendants])
  | succ f ih =>
    intro p acc r h x hx
    simp only [collectDescendants] at h
    have hfold : ∀ (ls : List (String × Option String)), (∀ l ∈ ls, l ∈ links ∧ l.2 = some p) →
        ∀ (a r' : List String),
        ls.foldlM (fun a c => collectDescendants links f c.1 a) a = some r' →
        (∀ y ∈ a, y ∈ acc ∨ Desc links p y) → ∀ y ∈ r', y ∈ acc ∨ Desc links p y := by
      intro ls
      induction ls with
      | nil =>
        intro _ a r' hh hbase y hy
        simp only [List.foldlM_nil] at hh
        cases hh
        exact hbase y hy
      | cons c rest ihl =>
        intro hmem a r' hh hbase y hy
        rw [List.foldlM_cons] at hh
        rcases hmid : collectDescendants links f c.1 a with _ | a'
        · rw [hmid] at hh; exact absurd hh (by simp)
        · rw [hmid] at hh
          simp only [Option.bind_eq_bind, Option.some_bind] at hh
          refine ihl (fun l hl => hmem l (List.mem_cons_of_mem _ hl)) a' r' hh ?_ y hy
          intro z hz
          rcases ih c.1 a a' hmid z hz with hz2 | hz2
          · exact hbase z hz2
          · exact Or.inr (Desc.head (hmem c (by simp)).1 (hmem c (by simp)).2 hz2)
    refine hfold _ (fun l hl => ?_) _ _ h ?_ x hx
    · have := List.mem_filter.mp hl
      exact ⟨this.1, by simpa using this.2⟩
    · intro y hy
      rcases List.mem_append.mp hy with hy | hy
      · exact Or.inl hy
      · rcases List.mem_singleton.mp hy with rfl
        exact Or.inr (Desc.refl _)

theorem collect_fold_elem (links : List (String × Option String)) (f : Nat) :
    ∀ (ls : List (String × Option String)) (a r : List String),
      ls.foldlM (fun a c => collectDescendants links f c.1 a) a = some r →
      ∀ l ∈ ls, ∃ a0 a1, collectDescendants links f l.1 a0 = some a1 ∧ ∀ y ∈ a1, y ∈ r := by
  intro ls
  induction ls with
  | nil => intro a r _ l hl; exact absurd hl (by simp)
  | cons c rest ihl =>
    intro a r hh l hl
    rw [List.foldlM_cons] at hh
    rcases hmid : collectDescendants links f c.1 a with _ | a'
    · rw [hmid] at hh; exact absurd hh (by simp)
    · rw [hmid] at hh
      simp only [Option.bind_eq_bind, Option.some_bind] at hh
      rcases List.mem_cons.mp hl with rfl | hl2
      · exact ⟨a, a', hmid, fun y hy => collect_fold_mono links f rest a' r hh y hy⟩
      · exact ihl a' r hh l hl2

theorem collect_complete (links : List (String × Option String)) (p x : String)
    (hd : Desc links p x) :
    ∀ (f : Nat) (acc r : List String),
      collectDescendants links f p acc = some r → x ∈ r := by
  induction hd with
  | refl a =>
    intro f acc r h
    exact collect_mono links f a acc r h a (Or.inr rfl)
  | @head a b l hl hp _ ihd =>
    intro f acc r h
    match f with
    | 0 => exact absurd h (by simp [collectDescendants])
    | f + 1 =>
      simp only [collectDescendants] at h
      have hlf : l ∈ links.filter fun l => l.2 = some a :=
        List.mem_filter.mpr ⟨hl, by simp [hp]⟩
      obtain ⟨a0, a1, hc, hsub⟩ := collect_fold_elem links f _ _ _ h l hlf
      exact hsub b (ihd f a0 a1 hc)

theorem collect_spec (links : List (String × Option String)) (f : Nat) (id : String)
    (ids : List String) (h : collectDescendants links f id [] = some ids) :
    ∀ x, x ∈ ids ↔ Desc links id x := by
  intro x
  constructor
  · intro hx
    rcases collect_sound links f id [] ids h x hx with hx2 | hx2
    · exact absurd hx2 (by simp)
    · exact hx2
  · intro hx
    exact collect_complete links id x hx f [] ids h

/-- The in-memory entry of the `completedHighlights` map (id, parent id,
wrapped span element ids). -/
structure MemEntry where
  id : String
  parentId : Option String
  spans : List Nat
deriving DecidableEq, Repr

def memLinksOf (mem : List MemEntry) : List (String × Option String) :=
  mem.map fun e => (e.id, e.parentId)

/-- Modelled from the spec: content.js keeps the in-memory
`completedHighlights` map but carries no cascade-delete routine for it in
src/; §4.4 of the specification requires `cascadeDelete(id)` to remove
"the highlight and, recursively, every highlight whose parentId chain
leads back to it, in both memory and the Store".  The memory side is
therefore modelled with the same descendant-collection algorithm as the
Store side. -/
def cascadeDeleteMem (mem : List MemEntry) (id : String) : Option (List MemEntry) :=
  (collectDescendants (memLinksOf mem) (mem.length + 1) id []).map fun ids =>
    mem.filter fun e => !ids.contains e.id

/-- C8: deleting a highlight by id removes that highlight and,
recursively, every highlight whose `parentId` chain leads back to it, in
both memory and the Store, while every highlight outside that descendant
set remains stored unchanged (the result is a sublist of the original
list). -/
theorem c8_cascade_delete (hs : List StoredHighlight) (mem : List MemEntry) (id : String)
    (outS : List StoredHighlight) (outM : List MemEntry)
    (hS : deleteHighlight true hs id = some outS)
    (hM : cascadeDeleteMem mem id = some outM) :
    (outS.Sublist hs ∧ ∀ h, h ∈ outS ↔ h ∈ hs ∧ ¬ Desc (linksOf hs) id h.id) ∧
    (outM.Sublist mem ∧ ∀ e, e ∈ outM ↔ e ∈ mem ∧ ¬ Desc (memLinksOf mem) id e.id) := by
  simp only [deleteHighlight, Bool.not_true, Bool.false_eq_true, if_false, Option.map_eq_some'] at hS
  simp only [cascadeDeleteMem, Option.map_eq_some'] at hM
  obtain ⟨idsS, hcS, rfl⟩ := hS
  obtain ⟨idsM, hcM, rfl⟩ := hM
  have hspecS := collect_spec (linksOf hs) (hs.length + 1) id idsS hcS
  have hspecM := collect_spec (memLinksOf mem) (mem.length + 1) id idsM hcM
  refine ⟨⟨List.filter_sublist _, fun h => ?_⟩, ⟨List.filter_sublist _, fun e => ?_⟩⟩
  · rw [List.mem_filter]
    constructor
    · rintro ⟨h1, h2⟩
      refine ⟨h1, fun hd => ?_⟩
      have hm : h.id ∈ idsS := (hspecS h.id).mpr hd
      simp only [Bool.not_eq_true'] at h2
      have hc : List.elem h.id idsS = true := List.elem_iff.mpr hm
      rw [show idsS.contains h.id = List.elem h.id idsS from rfl] at h2
      rw [h2] at hc
      exact Bool.noConfusion hc
    · rintro ⟨h1, h2⟩
      refine ⟨h1, ?_⟩
      simp only [Bool.not_eq_true']
      rw [← Bool.not_eq_true, show idsS.contains h.id = List.elem h.id idsS from rfl, List.elem_iff]
      exact fun hm => h2 ((hspecS h.id).mp hm)
  · rw [List.mem_filter]
    constructor
    · rintro ⟨h1, h2⟩
      refine ⟨h1, fun hd => ?_⟩
      have hm : e.id ∈ idsM := (hspecM e.id).mpr hd
      simp only [Bool.not_eq_true'] at h2
      have hc : List.elem e.id idsM = true := List.elem_iff.mpr hm
      rw [show idsM.contains e.id = List.elem e.id idsM from rfl] at h2
      rw [h2] at hc
      exact Bool.noConfusion hc
    · rintro ⟨h1, h2⟩
      refine ⟨h1, ?_⟩
      simp only [Bool.not_eq_true']
      rw [← Bool.not_eq_true, show idsM.contains e.id = List.elem e.id idsM from rfl, List.elem_iff]
      exact fun hm => h2 ((hspecM e.id).mp hm)

def c8Rec (i : String) (p : Option String) : StoredHighlight :=
  { id := i, text := "t", sentence := none, blockTypes := none, responseHTML := none,
    url := "u", site := "chatgpt", parentId := p, sourceTurnIndex := none,
    questionIndex := none, responseIndex := none, createdAt := 0 }

def c8Store : List StoredHighlight :=
  [c8Rec "A" none, c8Rec "B" (some "A"), c8Rec "C" (some "B"), c8Rec "D" none]

def c8Mem : List MemEntry :=
  [⟨"A", none, [1]⟩, ⟨"B", some "A", [2]⟩, ⟨"C", some "B", [3]⟩, ⟨"D", none, [4]⟩]

theorem c8_cascade_delete_witness :
    deleteHighlight true c8Store "A" = some [c8Rec "D" none] ∧
    cascadeDeleteMem c8Mem "A" = some [⟨"D", none, [4]⟩] ∧
    (([c8Rec "D" none].Sublist c8Store ∧
        ∀ h, h ∈ [c8Rec "D" none] ↔ h ∈ c8Store ∧ ¬ Desc (linksOf c8Store) "A" h.id) ∧
      (([(⟨"D", none, [4]⟩ : MemEntry)]).Sublist c8Mem ∧
        ∀ e, e ∈ [(⟨"D", none, [4]⟩ : MemEntry)] ↔
          e ∈ c8Mem ∧ ¬ Desc (memLinksOf c8Mem) "A" e.id)) :=
  ⟨by decide, by decide,
    c8_cascade_delete c8Store c8Mem "A" [c8Rec "D" none] [⟨"D", none, [4]⟩]
      (by decide) (by decide)⟩

/-! ## C7: response-watch timeout -/

/-- One poll's observation of the page: for each turn article in document
order, whether its header label marks it as an AI response
(`label.textContent.includes(AI_LABEL_TEXT)`), and whether the site is
still generating (`isGenerating()`). -/
structure PollObs where
  turns : List Bool
  generating : Bool
deriving DecidableEq, Repr

/-- The mutable state of one `waitForResponse` watch: the closure
variables of the source function together with the document/memory facts
the claim is about (which turns this watch hid, the popup loading
element's text and how often the timeout message was written to it, the
early-registered map entry and its wrapped spans). -/
structure WState where
  attempts : Nat
  cancelled : Bool
  detached : Bool
  questionTurn : Option Nat
  responseTurn : Option Nat
  hidden : List Nat
  loadingMsg : String
  msgSets : Nat
  mapEntry : Bool
  spans : List Nat
  captured : Bool
  timedOut : Bool
  done : Bool
deriving DecidableEq, Repr

def maxAttempts : Nat := 200

def initWState : WState :=
  { attempts := 0, cancelled := false, detached := false, questionTurn := none,
    responseTurn := none, hidden := [], loadingMsg := "Loading", msgSets := 0,
    mapEntry := false, spans := [], captured := false, timedOut := false, done := false }

/-- Detect and hide the injected question turn: the turn at index
`turnsBefore` qualifies when its label is absent or not the AI label. -/
def pollQ (turnsBefore : Nat) (obs : PollObs) (st : WState) : WState :=
  if st.questionTurn = none ∧ turnsBefore < obs.turns.length then
    if obs.turns.getD turnsBefore true = false then
      { st with questionTurn := some turnsBefore, hidden := st.hidden ++ [turnsBefore] }
    else st
  else st

/-- Detect the AI response turn at index `turnsBefore + 1`. -/
def pollR (turnsBefore : Nat) (obs : PollObs) (st : WState) : WState :=
  if st.responseTurn = none ∧ turnsBefore + 1 < obs.turns.length then
    if obs.turns.getD (turnsBefore + 1) false = true then
      { st with responseTurn := some (turnsBefore + 1) }
    else st
  else st

/-- `unhideTurns()`: remove the `jr-hidden` class from the question and
response turns this watch hid. -/
def unhideTurns (st : WState) : WState :=
  { st with hidden := st.hidden.filter fun i =>
      !(decide (st.questionTurn = some i) || decide (st.responseTurn = some i)) }

/-- The timeout branch of `poll()`: write the timeout message into the
popup loading element when still attached, unhide the hidden turns, and
when detached roll the early registration back (delete the map entry and
unwrap the spans). -/
def timeoutStep (st : WState) : WState :=
  let st1 := if st.detached = false then
      { st with loadingMsg := "Response timed out.", msgSets := st.msgSets + 1 }
    else st
  let st2 := unhideTurns st1
  let st3 := if st2.detached = true then { st2 with mapEntry := false, spans := [] } else st2
  { st3 with timedOut := true, done := true }

/-- The capture / timeout / reschedule decision at the end of `poll()`. -/
def pollFinish (obs : PollObs) (st : WState) : WState :=
  if st.responseTurn ≠ none ∧ obs.generating = false then
    { st with captured := true, done := true }
  else if maxAttempts ≤ st.attempts then
    timeoutStep st
  else st

/-- One execution of `poll()` from `waitForResponse`. -/
def poll (turnsBefore : Nat) (obs : PollObs) (st : WState) : WState :=
  if st.cancelled then st
  else pollFinish obs (pollR turnsBefore obs (pollQ turnsBefore obs
    { st with attempts := st.attempts + 1 }))

/-- `cancelResponseWatch(true)` (detach mode): keep the poll running, save
the currently wrapped spans and register the highlight early in the
in-memory map.  The callback is nulled once the watch finished. -/
def cancelWatchDetach (ds : List Nat) (st : WState) : WState :=
  if st.done then st
  else { st with detached := true, spans := ds, mapEntry := true }

/-- The watch loop: at each tick an optional detach event fires, then
`poll()` runs; the loop stops once the watch captured or timed out. -/
def runWatch (turnsBefore : Nat) (env : Nat → PollObs) (detach : Nat → Option (List Nat)) :
    Nat → WState → WState
  | 0, st => st
  | n + 1, st =>
    if st.done then st
    else
      runWatch turnsBefore env detach n (poll turnsBefore (env st.attempts)
        (match detach st.attempts with
         | some ds => cancelWatchDetach ds st
         | none => st))

def optList : Option Nat → List Nat
  | none => []
  | some q => [q]

/-- Invariant of a live watch: the timeout message was never written, the
turns hidden by this watch are exactly the (hidden) question turn, and
nothing was captured or timed out yet. -/
def WatchInv (st : WState) : Prop :=
  st.msgSets = 0 ∧ st.hidden = optList st.questionTurn ∧
  st.timedOut = false ∧ st.captured = false

/-- The timeout outcome the claim describes. -/
def TimeoutOut (st : WState) : Prop :=
  (st.detached = false →
    st.loadingMsg = "Response timed out." ∧ st.msgSets = 1 ∧ st.hidden = []) ∧
  (st.detached = true → st.mapEntry = false ∧ st.spans = [] ∧ st.hidden = []) ∧
  st.captured = false

/-- States reachable by the loop: live with the invariant, or finished
(timed out with the claimed outcome, or captured). -/
def WatchGood (st : WState) : Prop :=
  (st.done = false ∧ WatchInv st) ∨
  (st.done = true ∧ ((st.timedOut = true ∧ TimeoutOut st) ∨ st.timedOut = false))

theorem unhideTurns_nil (st : WState) (h : st.hidden = optList st.questionTurn) :
    (unhideTurns st).hidden = [] := by
  unfold unhideTurns
  dsimp only
  rw [h]
  cases hq : st.questionTurn with
  | none => rfl
  | some q => simp [optList, hq]

theorem timeoutStep_out (st : WState) (hi : WatchInv st) :
    (timeoutStep st).timedOut = true ∧ (timeoutStep st).done = true ∧
      TimeoutOut (timeoutStep st) := by
  obtain ⟨h1, h2, _h3, h4⟩ := hi
  unfold timeoutStep
  dsimp only
  cases hdet : st.detached
  · rw [if_pos rfl]
    split_ifs with h6
    · exact absurd h6 Bool.false_ne_true
    · refine ⟨rfl, rfl, fun _ => ⟨rfl, ?_, ?_⟩, fun hc => ?_, ?_⟩
      · show st.msgSets + 1 = 1
        rw [h1]
      · exact unhideTurns_nil _ h2
      · exact absurd hc Bool.false_ne_true
      · exact h4
  · rw [if_neg (by decide : ¬(true = false))]
    split_ifs with h6
    · refine ⟨rfl, rfl, fun hc => ?_, fun _ => ⟨rfl, rfl, ?_⟩, ?_⟩
      · exact absurd (hdet.symm.trans hc) (by decide : ¬(true = false))
      · exact unhideTurns_nil _ h2
      · exact h4
    · exact absurd (show (unhideTurns st).detached = true from hdet) h6

theorem pollQ_inv (turnsBefore : Nat) (obs : PollObs) (st : WState)
    (hd : st.done = false) (hi : WatchInv st) :
    (pollQ turnsBefore obs st).done = false ∧ WatchInv (pollQ turnsBefore obs st) := by
  obtain ⟨h1, h2, h3, h4⟩ := hi
  unfold pollQ
  split_ifs with hc _hq
  · refine ⟨hd, h1, ?_, h3, h4⟩
    show st.hidden ++ [turnsBefore] = optList (some turnsBefore)
    rw [h2, hc.1]
    rfl
  · exact ⟨hd, h1, h2, h3, h4⟩
  · exact ⟨hd, h1, h2, h3, h4⟩

theorem pollR_inv (turnsBefore : Nat) (obs : PollObs) (st : WState)
    (hd : st.done = false) (hi : WatchInv st) :
    (pollR turnsBefore obs st).done = false ∧ WatchInv (pollR turnsBefore obs st) := by
  obtain ⟨h1, h2, h3, h4⟩ := hi
  unfold pollR
  split_ifs <;> exact ⟨hd, h1, h2, h3, h4⟩

theorem pollFinish_good (obs : PollObs) (st : WState)
    (hd : st.done = false) (hi : WatchInv st) :
    WatchGood (pollFinish obs st) := by
  unfold pollFinish
  split_ifs with _hc _ht
  · exact Or.inr ⟨rfl, Or.inr hi.2.2.1⟩
  · obtain ⟨hto, hdo, hout⟩ := timeoutStep_out st hi
    exact Or.inr ⟨hdo, Or.inl ⟨hto, hout⟩⟩
  · exact Or.inl ⟨hd, hi⟩

theorem poll_good (turnsBefore : Nat) (obs : PollObs) (st : WState)
    (hd : st.done = false) (hi : WatchInv st) :
    WatchGood (poll turnsBefore obs st) := by
  unfold poll
  split_ifs
  · exact Or.inl ⟨hd, hi⟩
  · have h0 : ({ st with attempts := st.attempts + 1 } : WState).done = false ∧
        WatchInv { st with attempts := st.attempts + 1 } := ⟨hd, hi⟩
    have hq := pollQ_inv turnsBefore obs _ h0.1 h0.2
    have hr := pollR_inv turnsBefore obs _ hq.1 hq.2
    exact pollFinish_good obs _ hr.1 hr.2

theorem cancelWatchDetach_inv (ds : List Nat) (st : WState)
    (hd : st.done = false) (hi : WatchInv st) :
    (cancelWatchDetach ds st).done = false ∧ WatchInv (cancelWatchDetach ds st) := by
  unfold cancelWatchDetach
  rw [if_neg (by rw [hd]; exact Bool.false_ne_true)]
  exact ⟨hd, hi⟩

theorem runWatch_good (turnsBefore : Nat) (env : Nat → PollObs)
    (detach : Nat → Option (List Nat)) (fuel : Nat) (st : WState) (hg : WatchGood st) :
    WatchGood (runWatch turnsBefore env detach fuel st) := by
  induction fuel generalizing st with
  | zero => exact hg
  | succ n ih =>
    unfold runWatch
    cases hdo : st.done
    · rw [if_neg Bool.false_ne_true]
      have hi : WatchInv st := by
        rcases hg with ⟨_, hi⟩ | ⟨hdt, _⟩
        · exact hi
        · exact absurd (hdo.symm.trans hdt) Bool.false_ne_true
      refine ih _ ?_
      cases hdet : detach st.attempts with
      | none => exact poll_good turnsBefore (env st.attempts) st hdo hi
      | some ds =>
        have hc := cancelWatchDetach_inv ds st hdo hi
        exact poll_good turnsBefore (env st.attempts) _ hc.1 hc.2
    · rw [if_pos rfl]
      exact hg

/-- C7: if a response watch reaches its maximum poll count without
capturing an answer, then when still attached the popup loading indicator
is replaced with the timeout message exactly once and every turn the
watch hid is unhidden, and when detached the pre-registered pending
highlight is rolled back entirely: its entry is removed from the
in-memory highlight map and all its wrapped spans are removed from the
document. -/
theorem c7_watch_timeout (turnsBefore fuel : Nat) (env : Nat → PollObs)
    (detach : Nat → Option (List Nat)) (st : WState)
    (h : runWatch turnsBefore env detach fuel initWState = st)
    (ht : st.timedOut = true) :
    (st.detached = false →
      st.loadingMsg = "Response timed out." ∧ st.msgSets = 1 ∧ st.hidden = []) ∧
    (st.detached = true → st.mapEntry = false ∧ st.spans = [] ∧ st.hidden = []) ∧
    st.captured = false := by
  have hg : WatchGood (runWatch turnsBefore env detach fuel initWState) :=
    runWatch_good turnsBefore env detach fuel initWState
      (Or.inl ⟨rfl, rfl, rfl, rfl, rfl⟩)
  rw [h] at hg
  rcases hg with ⟨_, hinv⟩ | ⟨_, hcase⟩
  · exact absurd (hinv.2.2.1.symm.trans ht) Bool.false_ne_true
  · rcases hcase with ⟨_, hout⟩ | hf
    · exact hout
    · exact absurd (hf.symm.trans ht) Bool.false_ne_true

def c7Env : Nat → PollObs := fun _ => { turns := [], generating := true }

def c7Final : WState :=
  { attempts := 200, cancelled := false, detached := false, questionTurn := none,
    responseTurn := none, hidden := [], loadingMsg := "Response timed out.", msgSets := 1,
    mapEntry := false, spans := [], captured := false, timedOut := true, done := true }

set_option maxRecDepth 20000 in
theorem c7_watch_timeout_witness :
    runWatch 0 c7Env (fun _ => none) 250 initWState = c7Final ∧
    c7Final.timedOut = true ∧
    ((c7Final.detached = false →
        c7Final.loadingMsg = "Response timed out." ∧ c7Final.msgSets = 1 ∧
          c7Final.hidden = []) ∧
      (c7Final.detached = true →
        c7Final.mapEntry = false ∧ c7Final.spans = [] ∧ c7Final.hidden = []) ∧
      c7Final.captured = false) :=
  ⟨by decide, by decide,
    c7_watch_timeout 0 250 c7Env (fun _ => none) c7Final (by decide) (by decide)⟩

/-! ## C6: highlightRange atomicity

The document is a forest of identified nodes: the head of the list is the
document tree, the other roots are detached nodes.  A node reference of
the source becomes a node id; `parentNode` is recovered by searching the
forest, so a root has a null parent. -/

inductive HNode where
  | htext : Nat → List Char → HNode
  | helem : Nat → String → String → List HNode → HNode

def hid : HNode → Nat
  | .htext i _ => i
  | .helem i _ _ _ => i

def isId (j : Nat) (n : HNode) : Bool := decide (hid n = j)

def isTextId (j : Nat) : HNode → Bool
  | .htext i _ => decide (i = j)
  | .helem _ _ _ _ => false

mutual
/-- `j` is the id of a text node that has a parent inside `n`. -/
def parentedTextIn : HNode → Nat → Bool
  | .htext _ _, _ => false
  | .helem _ _ _ ch, j => ch.any (isTextId j) || parentedTextInList ch j

def parentedTextInList : List HNode → Nat → Bool
  | [], _ => false
  | n :: r, j => parentedTextIn n j || parentedTextInList r j
end

mutual
/-- `j` is the id of a node that has a parent inside `n`
(`node.parentNode !== null`). -/
def hasParentIn : HNode → Nat → Bool
  | .htext _ _, _ => false
  | .helem _ _ _ ch, j => ch.any (isId j) || hasParentInList ch j

def hasParentInList : List HNode → Nat → Bool
  | [], _ => false
  | n :: r, j => hasParentIn n j || hasParentInList r j
end

mutual
/-- `Text.splitText(off)` on the node with id `tid`: truncate it to its
first `off` characters and place the remainder, as the fresh node `nid`,
right after it (for a parentless node the remainder is simply detached,
which in the forest representation is the same position). -/
def splitTextN (tid off nid : Nat) : HNode → HNode
  | .htext i s => .htext i s
  | .helem i t c ch => .helem i t c (splitTextL tid off nid ch)

def splitTextL (tid off nid : Nat) : List HNode → List HNode
  | [] => []
  | n :: r =>
    (match n with
     | .htext i s =>
       if i = tid then [.htext i (s.take off), .htext nid (s.drop off)]
       else [.htext i s]
     | .helem i t c ch => [splitTextN tid off nid (.helem i t c ch)]) ++
    splitTextL tid off nid r
end

def splitText (f : List HNode) (tid off nid : Nat) : List HNode := splitTextL tid off nid f

mutual
/-- The combined `parentNode.insertBefore(span, ref)` +
`span.appendChild(ref)` of the source: replace the child `ref` by a fresh
highlight span wrapping it.  `none` when `ref` has no parent (the
`insertBefore` call on a null parent throws). -/
def wrapInNode (ref sid : Nat) : HNode → Option HNode
  | .htext _ _ => none
  | .helem i t c ch =>
    match wrapInList ref sid ch with
    | some ch2 => some (.helem i t c ch2)
    | none => none

def wrapInList (ref sid : Nat) : List HNode → Option (List HNode)
  | [] => none
  | n :: r =>
    if hid n = ref then some (.helem sid "SPAN" "jr-source-highlight" [n] :: r)
    else
      match wrapInNode ref sid n with
      | some n2 => some (n2 :: r)
      | none =>
        match wrapInList ref sid r with
        | some r2 => some (n :: r2)
        | none => none
end

/-- Roots are parentless, so a root is never wrapped: only matches inside
a tree count. -/
def wrapRootsList (ref sid : Nat) : List HNode → Option (List HNode)
  | [] => none
  | n :: r =>
    match wrapInNode ref sid n with
    | some n2 => some (n2 :: r)
    | none =>
      match wrapRootsList ref sid r with
      | some r2 => some (n :: r2)
      | none => none

def wrapNode (f : List HNode) (ref sid : Nat) : Option (List HNode) :=
  wrapRootsList ref sid f

mutual
def textLenIn : HNode → Nat → Option Nat
  | .htext i s, j => if i = j then some s.length else none
  | .helem _ _ _ ch, j => textLenInList ch j

def textLenInList : List HNode → Nat → Option Nat
  | [], _ => none
  | n :: r, j =>
    match textLenIn n j with
    | some l => some l
    | none => textLenInList r j
end

def textLen (f : List HNode) (j : Nat) : Option Nat := textLenInList f j

def isTextIn (f : List HNode) (j : Nat) : Bool := (textLen f j).isSome

mutual
def pathInNode : HNode → Nat → Option (List Nat)
  | .htext i _, j => if i = j then some [] else none
  | .helem i _ _ ch, j => if i = j then some [] else pathInList ch j 0

def pathInList : List HNode → Nat → Nat → Option (List Nat)
  | [], _, _ => none
  | n :: r, j, k =>
    match pathInNode n j with
    | some p => some (k :: p)
    | none => pathInList r j (k + 1)
end

def pathOfId (f : List HNode) (j : Nat) : Option (List Nat) := pathInList f j 0

def commonPrefix : List Nat → List Nat → List Nat
  | a :: as, b :: bs => if a = b then a :: commonPrefix as bs else []
  | _, _ => []

def nodeAtPath : List HNode → List Nat → Option HNode
  | _, [] => none
  | l, k :: p =>
    match l[k]? with
    | none => none
    | some n =>
      match p with
      | [] => some n
      | _ =>
        match n with
        | .htext _ _ => none
        | .helem _ _ _ ch => nodeAtPath ch p

mutual
/-- The `(path, id, length)` of every text node strictly under a node, in
document order: the text nodes a `TreeWalker` rooted there visits. -/
def textsUnder : HNode → List Nat → List (List Nat × Nat × Nat)
  | .htext _ _, _ => []
  | .helem _ _ _ ch, p => textsUnderList ch p 0

def textsUnderList : List HNode → List Nat → Nat → List (List Nat × Nat × Nat)
  | [], _, _ => []
  | n :: r, p, k =>
    (match n with
     | .htext i s => [(p ++ [k], i, s.length)]
     | .helem i t c ch => textsUnder (.helem i t c ch) (p ++ [k])) ++
    textsUnderList r p (k + 1)
end

mutual
/-- Ids of the `jr-source-highlight` marker elements in a node. -/
def markersIn : HNode → List Nat
  | .htext _ _ => []
  | .helem i _ c ch => (if c = "jr-source-highlight" then [i] else []) ++ markersInList ch

def markersInList : List HNode → List Nat
  | [] => []
  | n :: r => markersIn n ++ markersInList r
end

def markersList (f : List HNode) : List Nat := markersInList f

mutual
/-- The catch-block cleanup for one wrapper: move its children out in
front of it and remove it (a parentless wrapper is left alone, as the
null-parent `insertBefore` throw is swallowed). -/
def unwrapInNode (wid : Nat) : HNode → HNode
  | .htext i s => .htext i s
  | .helem i t c ch =>
    .helem i t c (unwrapInList wid ch)

def unwrapInList (wid : Nat) : List HNode → List HNode
  | [] => []
  | n :: r =>
    (match n with
     | .htext i s => [HNode.htext i s]
     | .helem i t c ch =>
       if i = wid then ch
       else [unwrapInNode wid (.helem i t c ch)]) ++
    unwrapInList wid r
end

def unwrapSpan (f : List HNode) (wid : Nat) : List HNode := f.map (unwrapInNode wid)

def unwindAll (ws : List Nat) (f : List HNode) : List HNode := ws.foldl unwrapSpan f

/-- A DOM `Range` whose containers are node ids. -/
structure HRange where
  sId : Nat
  sOff : Nat
  eId : Nat
  eOff : Nat
deriving DecidableEq, Repr

/-- The reverse wrapping loop of `highlightRange`: the worklist carries
`(id, collected length)` in reverse document order; the state is the
forest, the wrapper ids (`unshift` = cons) and the fresh-id counter.  An
error carries the forest and wrappers at the throw. -/
def hlLoop (fstId lstId fOff lOff : Nat) :
    List (Nat × Nat) → List HNode → List Nat → Nat →
    Except (List HNode × List Nat) (List HNode × List Nat × Nat)
  | [], f, ws, ctr => .ok (f, ws, ctr)
  | t :: rest, f, ws, ctr =>
    let tn := t.1
    let tlen := t.2
    if tn = fstId ∧ tn = lstId then
      if lOff ≤ fOff then hlLoop fstId lstId fOff lOff rest f ws ctr
      else
        let f1 := splitText f tn fOff ctr
        let f2 := splitText f1 ctr (lOff - fOff) (ctr + 1)
        match wrapNode f2 ctr (ctr + 2) with
        | some f3 => hlLoop fstId lstId fOff lOff rest f3 ((ctr + 2) :: ws) (ctr + 3)
        | none => .error (f2, ws)
    else if tn = lstId then
      if 0 < lOff then
        let f1 := splitText f tn lOff ctr
        match wrapNode f1 tn (ctr + 1) with
        | some f2 => hlLoop fstId lstId fOff lOff rest f2 ((ctr + 1) :: ws) (ctr + 2)
        | none => .error (f1, ws)
      else hlLoop fstId lstId fOff lOff rest f ws ctr
    else if tn = fstId then
      if fOff < (textLen f tn).getD tlen then
        let f1 := splitText f tn fOff ctr
        match wrapNode f1 ctr (ctr + 1) with
        | some f2 => hlLoop fstId lstId fOff lOff rest f2 ((ctr + 1) :: ws) (ctr + 2)
        | none => .error (f1, ws)
      else hlLoop fstId lstId fOff lOff rest f ws ctr
    else
      match wrapNode f tn ctr with
      | some f2 => hlLoop fstId lstId fOff lOff rest f2 (ctr :: ws) (ctr + 1)
      | none => .error (f, ws)

/-- The try-block of `highlightRange`: collapsed guard, single-text-node
fast path, and the TreeWalker multi-node path.  `Except.error` is a
thrown exception carrying the forest and wrappers at the throw. -/
def hlTry (f : List HNode) (ctr : Nat) (r : HRange) :
    Except (List HNode × List Nat) (List HNode × List Nat) :=
  if r.sId = r.eId ∧ r.sOff = r.eOff then .ok (f, [])
  else if r.sId = r.eId ∧ isTextIn f r.sId = true then
    let len := (textLen f r.sId).getD 0
    let so := min r.sOff len
    let eo := min r.eOff len
    if eo ≤ so then .ok (f, [])
    else
      let f1 := splitText f r.sId so ctr
      let f2 := splitText f1 ctr (eo - so) (ctr + 1)
      match wrapNode f2 ctr (ctr + 2) with
      | some f3 => .ok (f3, [ctr + 2])
      | none => .error (f2, [])
  else
    match pathOfId f r.sId, pathOfId f r.eId with
    | some ps, some pe =>
      (match nodeAtPath f (commonPrefix ps pe) with
      | none => .error (f, [])
      | some ancN =>
        let sr : SRange := ⟨ps, r.sOff, pe, r.eOff⟩
        match (textsUnder ancN (commonPrefix ps pe)).filter
            fun t => intersectsNode sr t.1 with
        | [] => .ok (f, [])
        | t0 :: ttl =>
          let tl := (t0 :: ttl).getLastD t0
          let fstId := t0.2.1
          let lstId := tl.2.1
          let fOff := if fstId = r.sId then min r.sOff t0.2.2 else 0
          let lOff := if lstId = r.eId then min r.eOff tl.2.2 else tl.2.2
          match hlLoop fstId lstId fOff lOff
              ((t0 :: ttl).reverse.map fun t => (t.2.1, t.2.2)) f [] ctr with
          | .ok (f2, ws, _) => .ok (f2, ws)
          | .error e => .error e)
    | _, _ => .error (f, [])

/-- `highlightRange(range)`: run the try-block; on a throw, unwind every
partial wrapper and return an empty wrapper list.  Returns the final
forest, the wrapper ids and whether the catch ran. -/
def highlightRange (f : List HNode) (ctr : Nat) (r : HRange) :
    List HNode × List Nat × Bool :=
  match hlTry f ctr r with
  | .ok (f2, ws) => (f2, ws, false)
  | .error (f2, ws) => (unwindAll ws f2, [], true)

def headElem : List HNode → Bool
  | .helem _ _ _ _ :: _ => true
  | _ => false

mutual
theorem pt_hasParentIn : ∀ (n : HNode) (j : Nat),
    parentedTextIn n j = true → hasParentIn n j = true
  | .htext _ _, j, h => absurd h (by simp [parentedTextIn])
  | .helem i t c ch, j, h => by
    simp only [parentedTextIn, Bool.or_eq_true] at h
    simp only [hasParentIn, Bool.or_eq_true]
    rcases h with h | h
    · obtain ⟨x, hx, hxx⟩ := List.any_eq_true.mp h
      refine Or.inl (List.any_eq_true.mpr ⟨x, hx, ?_⟩)
      cases x with
      | htext i2 s =>
        simp only [isTextId, decide_eq_true_eq] at hxx
        simp [isId, hid, hxx]
      | helem _ _ _ _ => exact absurd hxx (by simp [isTextId])
    · exact Or.inr (pt_hasParentInList ch j h)

theorem pt_hasParentInList : ∀ (l : List HNode) (j : Nat),
    parentedTextInList l j = true → hasParentInList l j = true
  | [], j, h => absurd h (by simp [parentedTextInList])
  | n :: r, j, h => by
    simp only [parentedTextInList, Bool.or_eq_true] at h
    simp only [hasParentInList, Bool.or_eq_true]
    rcases h with h | h
    · exact Or.inl (pt_hasParentIn n j h)
    · exact Or.inr (pt_hasParentInList r j h)
end

theorem split_any_textId : ∀ (l : List HNode) (tid off nid j : Nat),
    l.any (isTextId j) = true → (splitTextL tid off nid l).any (isTextId j) = true
  | [], _, _, _, j, h => absurd h (by simp)
  | .htext i s :: r, tid, off, nid, j, h => by
    simp only [List.any_cons, Bool.or_eq_true] at h
    by_cases hit : i = tid
    · subst hit
      simp only [splitTextL, splitTextN, List.cons_append, List.nil_append, eq_self_iff_true, if_true, List.any_cons, Bool.or_eq_true]
      rcases h with h | h
      · exact Or.inl h
      · exact Or.inr (Or.inr (split_any_textId r i off nid j h))
    · simp only [splitTextL, splitTextN, List.cons_append, List.nil_append, if_neg hit, List.any_cons, Bool.or_eq_true]
      rcases h with h | h
      · exact Or.inl h
      · exact Or.inr (split_any_textId r tid off nid j h)
  | .helem i t c ch :: r, tid, off, nid, j, h => by
    simp only [List.any_cons, Bool.or_eq_true] at h
    simp only [splitTextL, splitTextN, List.cons_append, List.nil_append, List.any_cons, Bool.or_eq_true]
    rcases h with h | h
    · exact absurd h (by simp [isTextId])
    · exact Or.inr (split_any_textId r tid off nid j h)

theorem split_any_gains : ∀ (l : List HNode) (tid off nid : Nat),
    l.any (isTextId tid) = true → (splitTextL tid off nid l).any (isTextId nid) = true
  | [], _, _, _, h => absurd h (by simp)
  | .htext i s :: r, tid, off, nid, h => by
    simp only [List.any_cons, Bool.or_eq_true] at h
    by_cases hit : i = tid
    · subst hit
      simp only [splitTextL, splitTextN, List.cons_append, List.nil_append, eq_self_iff_true, if_true, List.any_cons, Bool.or_eq_true]
      exact Or.inr (Or.inl (by simp [isTextId]))
    · simp only [splitTextL, splitTextN, List.cons_append, List.nil_append, if_neg hit, List.any_cons, Bool.or_eq_true]
      rcases h with h | h
      · exact absurd h (by simp [isTextId, hit])
      · exact Or.inr (split_any_gains r tid off nid h)
  | .helem i t c ch :: r, tid, off, nid, h => by
    simp only [List.any_cons, Bool.or_eq_true] at h
    simp only [splitTextL, splitTextN, List.cons_append, List.nil_append, List.any_cons, Bool.or_eq_true]
    rcases h with h | h
    · exact absurd h (by simp [isTextId])
    · exact Or.inr (split_any_gains r tid off nid h)

mutual
theorem split_pt_monoN : ∀ (n : HNode) (tid off nid j : Nat),
    parentedTextIn n j = true → parentedTextIn (splitTextN tid off nid n) j = true
  | .htext _ _, _, _, _, j, h => absurd h (by simp [parentedTextIn])
  | .helem i t c ch, tid, off, nid, j, h => by
    simp only [parentedTextIn, Bool.or_eq_true] at h
    simp only [splitTextN, parentedTextIn, Bool.or_eq_true]
    rcases h with h | h
    · exact Or.inl (split_any_textId ch tid off nid j h)
    · exact Or.inr (split_pt_monoL ch tid off nid j h)

theorem split_pt_monoL : ∀ (l : List HNode) (tid off nid j : Nat),
    parentedTextInList l j = true → parentedTextInList (splitTextL tid off nid l) j = true
  | [], _, _, _, j, h => absurd h (by simp [parentedTextInList])
  | .htext i s :: r, tid, off, nid, j, h => by
    simp only [parentedTextInList, Bool.or_eq_true] at h
    rcases h with h | h
    · exact absurd h (by simp [parentedTextIn])
    · by_cases hit : i = tid
      · subst hit
        simp only [splitTextL, splitTextN, List.cons_append, List.nil_append, eq_self_iff_true, if_true, parentedTextInList, Bool.or_eq_true]
        exact Or.inr (Or.inr (split_pt_monoL r i off nid j h))
      · simp only [splitTextL, splitTextN, List.cons_append, List.nil_append, if_neg hit, parentedTextInList, Bool.or_eq_true]
        exact Or.inr (split_pt_monoL r tid off nid j h)
  | .helem i t c ch :: r, tid, off, nid, j, h => by
    simp only [parentedTextInList, Bool.or_eq_true] at h
    have hsN : parentedTextIn (splitTextN tid off nid (.helem i t c ch)) j = true →
        parentedTextIn (.helem i t c (splitTextL tid off nid ch)) j = true := by
      intro hx; exact hx
    simp only [splitTextL, splitTextN, List.cons_append, List.nil_append, parentedTextInList, Bool.or_eq_true]
    rcases h with h | h
    · exact Or.inl (hsN (split_pt_monoN (.helem i t c ch) tid off nid j h))
    · exact Or.inr (split_pt_monoL r tid off nid j h)
end

mutual
theorem split_pt_gainsN : ∀ (n : HNode) (tid off nid : Nat),
    parentedTextIn n tid = true → parentedTextIn (splitTextN tid off nid n) nid = true
  | .htext _ _, _, _, _, h => absurd h (by simp [parentedTextIn])
  | .helem i t c ch, tid, off, nid, h => by
    simp only [parentedTextIn, Bool.or_eq_true] at h
    simp only [splitTextN, parentedTextIn, Bool.or_eq_true]
    rcases h with h | h
    · exact Or.inl (split_any_gains ch tid off nid h)
    · exact Or.inr (split_pt_gainsL ch tid off nid h)

theorem split_pt_gainsL : ∀ (l : List HNode) (tid off nid : Nat),
    parentedTextInList l tid = true → parentedTextInList (splitTextL tid off nid l) nid = true
  | [], _, _, _, h => absurd h (by simp [parentedTextInList])
  | .htext i s :: r, tid, off, nid, h => by
    simp only [parentedTextInList, Bool.or_eq_true] at h
    rcases h with h | h
    · exact absurd h (by simp [parentedTextIn])
    · by_cases hit : i = tid
      · subst hit
        simp only [splitTextL, splitTextN, List.cons_append, List.nil_append, eq_self_iff_true, if_true, parentedTextInList, Bool.or_eq_true]
        exact Or.inr (Or.inr (split_pt_gainsL r i off nid h))
      · simp only [splitTextL, splitTextN, List.cons_append, List.nil_append, if_neg hit, parentedTextInList, Bool.or_eq_true]
        exact Or.inr (split_pt_gainsL r tid off nid h)
  | .helem i t c ch :: r, tid, off, nid, h => by
    simp only [parentedTextInList, Bool.or_eq_true] at h
    simp only [splitTextL, splitTextN, List.cons_append, List.nil_append, parentedTextInList, Bool.or_eq_true]
    rcases h with h | h
    · have := split_pt_gainsN (.helem i t c ch) tid off nid h
      exact Or.inl this
    · exact Or.inr (split_pt_gainsL r tid off nid h)
end

mutual
theorem wrapInNode_isSome : ∀ (n : HNode) (ref sid : Nat),
    (wrapInNode ref sid n).isSome = hasParentIn n ref
  | .htext _ _, _, _ => by simp [wrapInNode, hasParentIn]
  | .helem i t c ch, ref, sid => by
    simp only [wrapInNode, hasParentIn]
    have hl := wrapInList_isSome ch ref sid
    cases hch : wrapInList ref sid ch with
    | some ch2 =>
      rw [hch] at hl
      simp only [Option.isSome_some] at hl
      simp [← hl]
    | none =>
      rw [hch] at hl
      simp only [Option.isSome_none] at hl
      simp [← hl]

theorem wrapInList_isSome : ∀ (l : List HNode) (ref sid : Nat),
    (wrapInList ref sid l).isSome = (l.any (isId ref) || hasParentInList l ref)
  | [], _, _ => by simp [wrapInList, hasParentInList]
  | n :: r, ref, sid => by
    simp only [wrapInList, List.any_cons, hasParentInList]
    by_cases hn : hid n = ref
    · simp [hn, isId]
    · have hnode := wrapInNode_isSome n ref sid
      rw [if_neg hn]
      cases hw : wrapInNode ref sid n with
      | some n2 =>
        rw [hw] at hnode
        simp only [Option.isSome_some] at hnode
        simp [← hnode]
      | none =>
        rw [hw] at hnode
        simp only [Option.isSome_none] at hnode
        have hrest := wrapInList_isSome r ref sid
        cases hr : wrapInList ref sid r with
        | some r2 =>
          rw [hr] at hrest
          simp only [Option.isSome_some] at hrest
          simp [isId, hn, ← hnode, ← hrest]
        | none =>
          rw [hr] at hrest
          simp only [Option.isSome_none] at hrest
          simp [isId, hn, ← hnode, ← hrest]
end

theorem wrapRootsList_isSome : ∀ (f : List HNode) (ref sid : Nat),
    (wrapRootsList ref sid f).isSome = hasParentInList f ref
  | [], _, _ => by simp [wrapRootsList, hasParentInList]
  | n :: r, ref, sid => by
    simp only [wrapRootsList, hasParentInList]
    have hnode := wrapInNode_isSome n ref sid
    cases hw : wrapInNode ref sid n with
    | some n2 =>
      rw [hw] at hnode
      simp only [Option.isSome_some] at hnode
      simp [← hnode]
    | none =>
      rw [hw] at hnode
      simp only [Option.isSome_none] at hnode
      have hrest := wrapRootsList_isSome r ref sid
      cases hr : wrapRootsList ref sid r with
      | some r2 =>
        rw [hr] at hrest
        simp only [Option.isSome_some] at hrest
        simp [← hnode, ← hrest]
      | none =>
        rw [hr] at hrest
        simp only [Option.isSome_none] at hrest
        simp [← hnode, ← hrest]

mutual
theorem wrap_pt_presN : ∀ (n : HNode) (ref sid j : Nat) (n2 : HNode),
    wrapInNode ref sid n = some n2 →
    parentedTextIn n j = true → parentedTextIn n2 j = true
  | .htext _ _, _, _, _, _, hw, _ => absurd hw (by simp [wrapInNode])
  | .helem i t c ch, ref, sid, j, n2, hw, h => by
    simp only [wrapInNode] at hw
    cases hch : wrapInList ref sid ch with
    | none => rw [hch] at hw; exact Option.noConfusion hw
    | some ch2 =>
      rw [hch] at hw
      simp only [Option.some.injEq] at hw
      subst hw
      simp only [parentedTextIn] at h ⊢
      exact wrap_pt_presL ch ref sid j ch2 hch h

theorem wrap_pt_presL : ∀ (l : List HNode) (ref sid j : Nat) (l2 : List HNode),
    wrapInList ref sid l = some l2 →
    (l.any (isTextId j) || parentedTextInList l j) = true →
    (l2.any (isTextId j) || parentedTextInList l2 j) = true
  | [], _, _, _, _, hw, _ => absurd hw (by simp [wrapInList])
  | n :: r, ref, sid, j, l2, hw, h => by
    simp only [wrapInList] at hw
    by_cases hn : hid n = ref
    · rw [if_pos hn] at hw
      simp only [Option.some.injEq] at hw
      subst hw
      simp only [List.any_cons, parentedTextInList, parentedTextIn, Bool.or_eq_true,
        List.any_nil, Bool.or_false] at h ⊢
      rcases h with (h | h) | h | h
      · exact Or.inr (Or.inl (Or.inl h))
      · exact Or.inl (Or.inr h)
      · exact Or.inr (Or.inl (Or.inr h))
      · exact Or.inr (Or.inr h)
    · rw [if_neg hn] at hw
      cases hwn : wrapInNode ref sid n with
      | some n2 =>
        rw [hwn] at hw
        simp only [Option.some.injEq] at hw
        subst hw
        simp only [List.any_cons, parentedTextInList, Bool.or_eq_true] at h ⊢
        rcases h with (h | h) | h | h
        · cases n with
          | htext i s => exact absurd hwn (by simp [wrapInNode])
          | helem _ _ _ _ => exact absurd h (by simp [isTextId])
        · exact Or.inl (Or.inr h)
        · exact Or.inr (Or.inl (wrap_pt_presN n ref sid j n2 hwn h))
        · exact Or.inr (Or.inr h)
      | none =>
        rw [hwn] at hw
        cases hwr : wrapInList ref sid r with
        | none => rw [hwr] at hw; exact Option.noConfusion hw
        | some r2 =>
          rw [hwr] at hw
          simp only [Option.some.injEq] at hw
          subst hw
          simp only [List.any_cons, parentedTextInList, Bool.or_eq_true] at h ⊢
          rcases h with (h | h) | h | h
          · exact Or.inl (Or.inl h)
          · have := wrap_pt_presL r ref sid j r2 hwr (by simp [h])
            rcases Bool.or_eq_true _ _ |>.mp this with h2 | h2
            · exact Or.inl (Or.inr h2)
            · exact Or.inr (Or.inr h2)
          · exact Or.inr (Or.inl h)
          · have := wrap_pt_presL r ref sid j r2 hwr (by simp [h])
            rcases Bool.or_eq_true _ _ |>.mp this with h2 | h2
            · exact Or.inl (Or.inr h2)
            · exact Or.inr (Or.inr h2)
end

theorem wrapRoots_pt_pres : ∀ (f : List HNode) (ref sid j : Nat) (f2 : List HNode),
    wrapRootsList ref sid f = some f2 →
    parentedTextInList f j = true → parentedTextInList f2 j = true
  | [], _, _, _, _, hw, _ => absurd hw (by simp [wrapRootsList])
  | n :: r, ref, sid, j, f2, hw, h => by
    simp only [wrapRootsList] at hw
    simp only [parentedTextInList, Bool.or_eq_true] at h
    cases hwn : wrapInNode ref sid n with
    | some n2 =>
      rw [hwn] at hw
      simp only [Option.some.injEq] at hw
      subst hw
      simp only [parentedTextInList, Bool.or_eq_true]
      rcases h with h | h
      · exact Or.inl (wrap_pt_presN n ref sid j n2 hwn h)
      · exact Or.inr h
    | none =>
      rw [hwn] at hw
      cases hwr : wrapRootsList ref sid r with
      | none => rw [hwr] at hw; exact Option.noConfusion hw
      | some r2 =>
        rw [hwr] at hw
        simp only [Option.some.injEq] at hw
        subst hw
        simp only [parentedTextInList, Bool.or_eq_true]
        rcases h with h | h
        · exact Or.inl h
        · exact Or.inr (wrapRoots_pt_pres r ref sid j r2 hwr h)

mutual
theorem split_pt_none_eqN : ∀ (n : HNode) (tid off nid : Nat),
    parentedTextIn n tid = false → splitTextN tid off nid n = n
  | .htext _ _, _, _, _, _ => rfl
  | .helem i t c ch, tid, off, nid, h => by
    simp only [parentedTextIn, Bool.or_eq_false_iff] at h
    simp only [splitTextN]
    rw [split_pt_none_eqL ch tid off nid h.1 h.2]

theorem split_pt_none_eqL : ∀ (l : List HNode) (tid off nid : Nat),
    l.any (isTextId tid) = false → parentedTextInList l tid = false →
    splitTextL tid off nid l = l
  | [], _, _, _, _, _ => by simp [splitTextL]
  | .htext i s :: r, tid, off, nid, ha, hp => by
    simp only [List.any_cons, Bool.or_eq_false_iff] at ha
    simp only [parentedTextInList, Bool.or_eq_false_iff] at hp
    have hit : ¬ i = tid := by
      intro hh
      rw [hh] at ha
      exact absurd ha.1 (by simp [isTextId])
    simp only [splitTextL, splitTextN, List.cons_append, List.nil_append, if_neg hit]
    rw [split_pt_none_eqL r tid off nid ha.2 hp.2]
  | .helem i t c ch :: r, tid, off, nid, ha, hp => by
    simp only [List.any_cons, Bool.or_eq_false_iff] at ha
    simp only [parentedTextInList, Bool.or_eq_false_iff] at hp
    have hN := split_pt_none_eqN (.helem i t c ch) tid off nid hp.1
    simp only [splitTextN, HNode.helem.injEq] at hN
    simp only [splitTextL, splitTextN, List.cons_append, List.nil_append]
    rw [hN.2.2.2, split_pt_none_eqL r tid off nid ha.2 hp.2]
end

mutual
theorem split_markersN : ∀ (n : HNode) (tid off nid : Nat),
    markersIn (splitTextN tid off nid n) = markersIn n
  | .htext _ _, _, _, _ => rfl
  | .helem i t c ch, tid, off, nid => by
    simp only [splitTextN, markersIn]
    rw [split_markersL ch tid off nid]

theorem split_markersL : ∀ (l : List HNode) (tid off nid : Nat),
    markersInList (splitTextL tid off nid l) = markersInList l
  | [], _, _, _ => by simp [splitTextL]
  | .htext i s :: r, tid, off, nid => by
    by_cases hit : i = tid
    · subst hit
      simp only [splitTextL, splitTextN, List.cons_append, List.nil_append, eq_self_iff_true, if_true, markersInList, markersIn,
        List.nil_append]
      exact split_markersL r i off nid
    · simp only [splitTextL, splitTextN, List.cons_append, List.nil_append, if_neg hit, markersInList, markersIn, List.nil_append]
      exact split_markersL r tid off nid
  | .helem i t c ch :: r, tid, off, nid => by
    have h1 := split_markersL ch tid off nid
    have h2 := split_markersL r tid off nid
    simp [splitTextL, splitTextN, markersInList, markersIn, h1, h2]
end

theorem pt_mem : ∀ (l : List HNode) (n : HNode) (j : Nat),
    n ∈ l → parentedTextIn n j = true → parentedTextInList l j = true
  | [], _, _, hm, _ => absurd hm (by simp)
  | x :: r, n, j, hm, h => by
    simp only [parentedTextInList, Bool.or_eq_true]
    rcases List.mem_cons.mp hm with rfl | hm2
    · exact Or.inl h
    · exact Or.inr (pt_mem r n j hm2 h)

mutual
theorem textsUnder_pt : ∀ (n : HNode) (p : List Nat) (t : List Nat × Nat × Nat),
    t ∈ textsUnder n p → parentedTextIn n t.2.1 = true
  | .htext _ _, p, t, hm => absurd hm (by simp [textsUnder])
  | .helem i tg c ch, p, t, hm => by
    simp only [textsUnder] at hm
    simp only [parentedTextIn]
    exact textsUnderList_pt ch p 0 t hm

theorem textsUnderList_pt : ∀ (l : List HNode) (p : List Nat) (k : Nat)
    (t : List Nat × Nat × Nat), t ∈ textsUnderList l p k →
    (l.any (isTextId t.2.1) || parentedTextInList l t.2.1) = true
  | [], _, _, t, hm => absurd hm (by simp [textsUnderList])
  | .htext i s :: r, p, k, t, hm => by
    simp only [textsUnderList, List.cons_append, List.nil_append] at hm
    simp only [List.any_cons, parentedTextInList, Bool.or_eq_true]
    rcases List.mem_cons.mp hm with rfl | hm2
    · exact Or.inl (Or.inl (by simp [isTextId]))
    · rcases Bool.or_eq_true _ _ |>.mp (textsUnderList_pt r p (k + 1) t hm2) with h | h
      · exact Or.inl (Or.inr h)
      · exact Or.inr (Or.inr h)
  | .helem i tg c ch :: r, p, k, t, hm => by
    simp only [textsUnderList, List.cons_append, List.nil_append] at hm
    simp only [List.any_cons, parentedTextInList, Bool.or_eq_true]
    rcases List.mem_append.mp hm with hm2 | hm2
    · have := textsUnderList_pt ch (p ++ [k]) 0 t hm2
      refine Or.inr (Or.inl ?_)
      simp only [parentedTextIn, Bool.or_eq_true]
      exact Bool.or_eq_true _ _ |>.mp this
    · rcases Bool.or_eq_true _ _ |>.mp (textsUnderList_pt r p (k + 1) t hm2) with h | h
      · exact Or.inl (Or.inr h)
      · exact Or.inr (Or.inr h)
end

theorem nodeAtPath_pt : ∀ (p : List Nat) (l : List HNode) (n : HNode) (j : Nat),
    nodeAtPath l p = some n → parentedTextIn n j = true → parentedTextInList l j = true
  | [], _, _, _, hn, _ => absurd hn (by simp [nodeAtPath])
  | k :: p, l, n, j, hn, h => by
    simp only [nodeAtPath] at hn
    cases hl : l[k]? with
    | none => rw [hl] at hn; exact Option.noConfusion hn
    | some n0 =>
      rw [hl] at hn
      have hmem : n0 ∈ l := List.getElem?_mem hl
      cases p with
      | nil =>
        simp only [Option.some.injEq] at hn
        rw [← hn] at h
        exact pt_mem l n0 j hmem h
      | cons k2 p2 =>
        cases n0 with
        | htext i s => exact Option.noConfusion hn
        | helem i tg c ch =>
          have := nodeAtPath_pt (k2 :: p2) ch n j hn h
          refine pt_mem l _ j hmem ?_
          simp only [parentedTextIn, Bool.or_eq_true]
          exact Or.inr this

theorem splitText_pt_mono (f : List HNode) (tid off nid j : Nat)
    (h : parentedTextInList f j = true) :
    parentedTextInList (splitText f tid off nid) j = true :=
  split_pt_monoL f tid off nid j h

theorem splitText_pt_gains (f : List HNode) (tid off nid : Nat)
    (h : parentedTextInList f tid = true) :
    parentedTextInList (splitText f tid off nid) nid = true :=
  split_pt_gainsL f tid off nid h

theorem wrapNode_of_pt (f : List HNode) (ref sid : Nat)
    (h : parentedTextInList f ref = true) : ∃ f2, wrapNode f ref sid = some f2 := by
  have hs := wrapRootsList_isSome f ref sid
  rw [pt_hasParentInList f ref h] at hs
  exact Option.isSome_iff_exists.mp hs

theorem wrapNode_pt_pres (f : List HNode) (ref sid j : Nat) (f2 : List HNode)
    (hw : wrapNode f ref sid = some f2) (h : parentedTextInList f j = true) :
    parentedTextInList f2 j = true :=
  wrapRoots_pt_pres f ref sid j f2 hw h

theorem hlLoop_ok : ∀ (lst : List (Nat × Nat)) (fstId lstId fOff lOff : Nat)
    (f : List HNode) (ws : List Nat) (ctr : Nat),
    (∀ t ∈ lst, parentedTextInList f t.1 = true) →
    ∃ out, hlLoop fstId lstId fOff lOff lst f ws ctr = Except.ok out
  | [], fstId, lstId, fOff, lOff, f, ws, ctr, _ => ⟨(f, ws, ctr), by simp [hlLoop]⟩
  | (tn, tlen) :: rest, fstId, lstId, fOff, lOff, f, ws, ctr, hinv => by
    have htn : parentedTextInList f tn = true := hinv (tn, tlen) (by simp)
    have hrest : ∀ t ∈ rest, parentedTextInList f t.1 = true :=
      fun t ht => hinv t (List.mem_cons_of_mem _ ht)
    simp only [hlLoop]
    split_ifs with h1 h2 h3 h4 h5
    · exact hlLoop_ok rest fstId lstId fOff lOff f ws ctr hrest
    · have hg : parentedTextInList (splitText f tn fOff ctr) ctr = true :=
        splitText_pt_gains f tn fOff ctr htn
      have hg2 : parentedTextInList
          (splitText (splitText f tn fOff ctr) ctr (lOff - fOff) (ctr + 1)) ctr = true :=
        splitText_pt_mono _ ctr (lOff - fOff) (ctr + 1) ctr hg
      obtain ⟨f3, hw⟩ := wrapNode_of_pt _ ctr (ctr + 2) hg2
      rw [hw]
      refine hlLoop_ok rest fstId lstId fOff lOff f3 ((ctr + 2) :: ws) (ctr + 3) ?_
      intro t ht
      refine wrapNode_pt_pres _ ctr (ctr + 2) t.1 f3 hw ?_
      exact splitText_pt_mono _ ctr (lOff - fOff) (ctr + 1) t.1
        (splitText_pt_mono f tn fOff ctr t.1 (hrest t ht))
    · have hm : parentedTextInList (splitText f tn lOff ctr) tn = true :=
        splitText_pt_mono f tn lOff ctr tn htn
      obtain ⟨f2, hw⟩ := wrapNode_of_pt _ tn (ctr + 1) hm
      rw [hw]
      refine hlLoop_ok rest fstId lstId fOff lOff f2 ((ctr + 1) :: ws) (ctr + 2) ?_
      intro t ht
      exact wrapNode_pt_pres _ tn (ctr + 1) t.1 f2 hw
        (splitText_pt_mono f tn lOff ctr t.1 (hrest t ht))
    · exact hlLoop_ok rest fstId lstId fOff lOff f ws ctr hrest
    · have hg : parentedTextInList (splitText f tn fOff ctr) ctr = true :=
        splitText_pt_gains f tn fOff ctr htn
      obtain ⟨f2, hw⟩ := wrapNode_of_pt _ ctr (ctr + 1) hg
      rw [hw]
      refine hlLoop_ok rest fstId lstId fOff lOff f2 ((ctr + 1) :: ws) (ctr + 2) ?_
      intro t ht
      exact wrapNode_pt_pres _ ctr (ctr + 1) t.1 f2 hw
        (splitText_pt_mono f tn fOff ctr t.1 (hrest t ht))
    · exact hlLoop_ok rest fstId lstId fOff lOff f ws ctr hrest
    · obtain ⟨f2, hw⟩ := wrapNode_of_pt f tn ctr htn
      rw [hw]
      refine hlLoop_ok rest fstId lstId fOff lOff f2 (ctr :: ws) (ctr + 1) ?_
      intro t ht
      exact wrapNode_pt_pres f tn ctr t.1 f2 hw (hrest t ht)

theorem wrapNode_isSome (f : List HNode) (ref sid : Nat) :
    (wrapNode f ref sid).isSome = hasParentInList f ref :=
  wrapRootsList_isSome f ref sid

theorem splits_head (f : List HNode) (sId so eo2 ctr : Nat)
    (hhead : headElem f = true)
    (hnp : hasParentInList (splitText (splitText f sId so ctr) ctr eo2 (ctr + 1)) ctr
      = false) :
    (splitText (splitText f sId so ctr) ctr eo2 (ctr + 1)).head? = f.head? := by
  have hpt1 : parentedTextInList f sId = false := by
    cases hx : parentedTextInList f sId
    · rfl
    · exfalso
      have hg := splitText_pt_gains f sId so ctr hx
      have hg2 := splitText_pt_mono (splitText f sId so ctr) ctr eo2 (ctr + 1) ctr hg
      rw [pt_hasParentInList _ ctr hg2] at hnp
      exact Bool.noConfusion hnp
  have hpt2 : parentedTextInList (splitText f sId so ctr) ctr = false := by
    cases hx : parentedTextInList (splitText f sId so ctr) ctr
    · rfl
    · exfalso
      have hg2 := splitText_pt_mono (splitText f sId so ctr) ctr eo2 (ctr + 1) ctr hx
      rw [pt_hasParentInList _ ctr hg2] at hnp
      exact Bool.noConfusion hnp
  cases f with
  | nil => exact absurd hhead (by simp [headElem])
  | cons hd tl =>
    cases hd with
    | htext i s => exact absurd hhead (by simp [headElem])
    | helem i t c ch =>
      have hptHd : parentedTextIn (.helem i t c ch) sId = false := by
        simp only [parentedTextInList, Bool.or_eq_false_iff] at hpt1
        exact hpt1.1
      have hd1 : splitText (.helem i t c ch :: tl) sId so ctr =
          .helem i t c ch :: splitTextL sId so ctr tl := by
        show splitTextL sId so ctr (.helem i t c ch :: tl) = _
        simp only [splitTextL, splitTextN, List.cons_append, List.nil_append]
        have he := split_pt_none_eqN (.helem i t c ch) sId so ctr hptHd
        simp only [splitTextN, HNode.helem.injEq] at he
        rw [he.2.2.2]
      rw [hd1] at hpt2 ⊢
      have hptHd2 : parentedTextIn (.helem i t c ch) ctr = false := by
        simp only [parentedTextInList, Bool.or_eq_false_iff] at hpt2
        exact hpt2.1
      have hd2 : splitText (.helem i t c ch :: splitTextL sId so ctr tl) ctr eo2 (ctr + 1) =
          .helem i t c ch :: splitTextL ctr eo2 (ctr + 1) (splitTextL sId so ctr tl) := by
        show splitTextL ctr eo2 (ctr + 1) _ = _
        simp only [splitTextL, splitTextN, List.cons_append, List.nil_append]
        have hf := split_pt_none_eqN (.helem i t c ch) ctr eo2 (ctr + 1) hptHd2
        simp only [splitTextN, HNode.helem.injEq] at hf
        rw [hf.2.2.2]
      rw [hd2]
      simp [List.head?]

theorem splits_markers (f : List HNode) (sId so eo2 ctr : Nat) :
    markersList (splitText (splitText f sId so ctr) ctr eo2 (ctr + 1)) = markersList f := by
  show markersInList (splitTextL ctr eo2 (ctr + 1) (splitTextL sId so ctr f))
    = markersInList f
  rw [split_markersL, split_markersL]

theorem hlTry_error (f : List HNode) (ctr : Nat) (r : HRange)
    (hhead : headElem f = true) (e : List HNode × List Nat)
    (he : hlTry f ctr r = Except.error e) :
    e.2 = [] ∧ e.1.head? = f.head? ∧ markersList e.1 = markersList f := by
  unfold hlTry at he
  split at he
  · exact absurd he (by simp)
  · split at he
    · simp only [] at he
      split at he
      · exact absurd he (by simp)
      · split at he
        · exact absurd he (by simp)
        · rename_i hw
          simp only [Except.error.injEq] at he
          subst he
          refine ⟨rfl, ?_, ?_⟩
          · refine splits_head f r.sId _ _ ctr hhead ?_
            have hs := wrapNode_isSome (splitText (splitText f r.sId
              (min r.sOff ((textLen f r.sId).getD 0)) ctr) ctr
              (min r.eOff ((textLen f r.sId).getD 0) -
                min r.sOff ((textLen f r.sId).getD 0)) (ctr + 1)) ctr (ctr + 2)
            rw [hw] at hs
            simp only [Option.isSome_none] at hs
            exact hs.symm
          · exact splits_markers f r.sId _ _ ctr
    · split at he
      · rename_i ps pe hps hpe
        split at he
        · simp only [Except.error.injEq] at he
          subst he
          exact ⟨rfl, rfl, rfl⟩
        · rename_i ancN hanc
          simp only [] at he
          split at he
          · exact absurd he (by simp)
          · rename_i t0 ttl hflt
            have hinv : ∀ t ∈ ((t0 :: ttl).reverse.map
                fun t => (t.2.1, t.2.2)), parentedTextInList f t.1 = true := by
              intro x hx
              obtain ⟨t, ht, hxt⟩ := List.mem_map.mp hx
              have ht2 : t ∈ t0 :: ttl := List.mem_reverse.mp ht
              rw [← hflt] at ht2
              have ht3 := List.mem_of_mem_filter ht2
              have hpt := textsUnder_pt ancN (commonPrefix ps pe) t ht3
              have hf := nodeAtPath_pt (commonPrefix ps pe) f ancN t.2.1 hanc hpt
              rw [← hxt]
              exact hf
            obtain ⟨out, hok⟩ := hlLoop_ok ((t0 :: ttl).reverse.map fun t => (t.2.1, t.2.2))
              t0.2.1 ((t0 :: ttl).getLastD t0).2.1
              (if t0.2.1 = r.sId then min r.sOff t0.2.2 else 0)
              (if ((t0 :: ttl).getLastD t0).2.1 = r.eId then
                min r.eOff ((t0 :: ttl).getLastD t0).2.2
               else ((t0 :: ttl).getLastD t0).2.2) f [] ctr hinv
            rw [hok] at he
            obtain ⟨f2, ws, c2⟩ := out
            exact absurd he (by simp)
      · simp only [Except.error.injEq] at he
        subst he
        exact ⟨rfl, rfl, rfl⟩

/-- C6: if wrapping a selection range in marker spans fails internally at
any point, every partially created marker is unwound: zero marker
elements remain, the document tree is unchanged, and an empty sequence of
wrappers is returned — the operation never leaves the document partially
wrapped. -/
theorem c6_wrap_failure_atomicity (f : List HNode) (ctr : Nat) (r : HRange)
    (hhead : headElem f = true)
    (hfail : (highlightRange f ctr r).2.2 = true) :
    (highlightRange f ctr r).2.1 = [] ∧
    (highlightRange f ctr r).1.head? = f.head? ∧
    markersList (highlightRange f ctr r).1 = markersList f := by
  unfold highlightRange at hfail ⊢
  cases he : hlTry f ctr r with
  | ok v =>
    rw [he] at hfail
    obtain ⟨f2, ws⟩ := v
    exact absurd hfail (by simp)
  | error e =>
    obtain ⟨h1, h2, h3⟩ := hlTry_error f ctr r hhead e he
    obtain ⟨f2, ws⟩ := e
    simp only at h1
    subst h1
    exact ⟨rfl, h2, h3⟩

def c6F : List HNode :=
  [.helem 0 "DIV" "" [.htext 1 ['h', 'e', 'l', 'l', 'o']], .htext 2 ['a', 'b', 'c']]

def c6R : HRange := { sId := 2, sOff := 0, eId := 2, eOff := 2 }

theorem c6_wrap_failure_atomicity_witness :
    headElem c6F = true ∧
    (highlightRange c6F 3 c6R).2.2 = true ∧
    ((highlightRange c6F 3 c6R).2.1 = [] ∧
      (highlightRange c6F 3 c6R).1.head? = c6F.head? ∧
      markersList (highlightRange c6F 3 c6R).1 = markersList c6F) :=
  ⟨by decide, by decide, c6_wrap_failure_atomicity c6F 3 c6R (by decide) (by decide)⟩
